import Mathlib

/-!
Verification of the resource-resolution and output-formatting core of the
mollie-cli repository (src/mollie_cli/client.py and src/mollie_cli/formatting.py).

Python values that can occur in an API record are embedded as the inductive
type `Value`; Python dicts are embedded as insertion-ordered association
structures (`Entries` inside a `Value`, plain association lists elsewhere).
Python exceptions are embedded as the `Except` monad with a `PyError` payload.
-/

set_option autoImplicit false

deriving instance DecidableEq for Except

/-! ## Python values and records -/

mutual
/-- A Python value as it can occur in an API record: `None`, `str`, `int`, `bool`,
a `datetime` object (as produced by `datetime.datetime.fromisoformat`, remembering
its source text), a `dict` (insertion-ordered), or any other object such as a `list`
(collapsed to `vList`, since the code under study only ever branches on whether a
value is a primitive or a dict). -/
inductive Value where
  | vNone : Value
  | vStr (s : String) : Value
  | vInt (n : Int) : Value
  | vBool (b : Bool) : Value
  | vDate (iso : String) : Value
  | vDict (entries : Entries) : Value
  | vList (elems : Elems) : Value
  deriving DecidableEq, Repr

/-- The insertion-ordered key/value pairs of a Python `dict` nested inside a `Value`. -/
inductive Entries where
  | nil : Entries
  | cons (key : String) (value : Value) (rest : Entries) : Entries
  deriving DecidableEq, Repr

/-- The elements of a Python sequence nested inside a `Value`. -/
inductive Elems where
  | nil : Elems
  | cons (head : Value) (tail : Elems) : Elems
  deriving DecidableEq, Repr
end

/-- Keyed lookup in a dict, first (and only, for genuine dicts) occurrence wins. -/
def Entries.lookup : Entries → String → Option Value
  | .nil, _ => none
  | .cons k v rest, key => if k = key then some v else rest.lookup key

/-- Association-list view of a dict's items, in insertion order (`dict.items()`). -/
def Entries.toList : Entries → List (String × Value)
  | .nil => []
  | .cons k v rest => (k, v) :: rest.toList

/-- A record returned by the vendor API, as consumed by the formatter.

Modelled from the spec: records are opaque vendor objects whose named fields are
read via attribute lookup by field key; they carry the payload's key/value data
in a stable order (the spec's Record "structured object with named fields",
serializable by `json.dumps`). -/
def Record := Entries

/-- Attribute lookup on a record.

Modelled from the spec: every registered projection field key "must exist as a
readable attribute on that resource-type's record shape" (spec §3), and a field
that is absent from the payload reads as `None` (spec §4.2: "missing/None renders
as empty"); the vendor record class itself lives outside this repository. -/
def pyGetAttr (obj : Record) (key : String) : Value :=
  match Entries.lookup obj key with
  | some v => v
  | none => Value.vNone

/-! ## Python exceptions -/

/-- An exception escaping the embedded code. `clientError` is the repository's own
`ClientError` (carrying its message); `typeError` and `valueError` are the Python
built-ins raised by standard-library calls. -/
inductive PyError where
  | clientError (msg : String)
  | typeError (msg : String)
  | valueError (msg : String)
  deriving DecidableEq, Repr

/-! ## String helpers (Python `in` and `startswith` on `str`) -/

/-- Characters of `needle` occurring consecutively somewhere in the second list:
the substring test performed by Python's `needle in haystack` on strings. -/
def strContainsSub (needle : List Char) : List Char → Bool
  | [] => needle.isEmpty
  | c :: rest => needle.isPrefixOf (c :: rest) || strContainsSub needle rest

/-- Python `needle in haystack` for strings. -/
def pyIn (needle haystack : String) : Bool :=
  strContainsSub needle.data haystack.data

/-- Python `s.startswith(p)`. -/
def pyStartsWith (s p : String) : Bool :=
  p.data.isPrefixOf s.data

/-! ## BaseAPIClient.find_resource_name (src/mollie_cli/client.py, lines 29-49)

The known resources are passed as the list of keys of
`get_supported_resources_map()` in its (stable) enumeration order. -/

/-- Embedding of `BaseAPIClient.find_resource_name`: an exact-name match wins;
otherwise the names containing the hint as a substring are collected, and
zero matches or more than one match raise `ClientError` with the messages of
the source. -/
def find_resource_name (names : List String) (hint : String) : Except PyError String :=
  if hint ∈ names then
    .ok hint
  else
    let resources := names.filter (fun name => pyIn hint name)
    match resources with
    | [] =>
      .error (.clientError ("No resource found for name \x27" ++ hint ++ "\x27, " ++
        "use one of: " ++ String.intercalate ", " names))
    | [r] => .ok r
    | _ =>
      .error (.clientError ("Hint matches multiple resources: " ++
        String.intercalate ", " resources))

/-! ## The no-hint path of BaseAPIClient.get (src/mollie_cli/client.py, lines 68-82)

The descriptors are the (name, id-prefix) items of `get_supported_resources_map()`
in enumeration order. -/

/-- The scanning loop of `BaseAPIClient.get` when no hint is given: the first
descriptor whose id-prefix starts the resource id wins (`break`), and the loop
leaves `resource_name = None` when nothing matches. -/
def scanForIdMatch : List (String × String) → String → Option String
  | [], _ => none
  | (name, pre) :: rest, resource_id =>
    if pyStartsWith resource_id pre then some name
    else scanForIdMatch rest resource_id

/-- Embedding of the no-hint path of `BaseAPIClient.get` up to the point where the
resource name is known: after the scan, `if not resource_name:` raises `ClientError`
both when the scan found nothing (`None`) and when the found name is falsy (`""`). -/
def get_resource_name_by_id (descriptors : List (String × String))
    (resource_id : String) : Except PyError String :=
  match scanForIdMatch descriptors resource_id with
  | none =>
    .error (.clientError ("Cannot find a resource for id \x27" ++ resource_id ++ "\x27"))
  | some name =>
    if name = "" then
      .error (.clientError ("Cannot find a resource for id \x27" ++ resource_id ++ "\x27"))
    else .ok name

/-! ## Formatting constants and projections (src/mollie_cli/formatting.py, lines 14-57) -/

def FORMAT_TABLE : String := "table"

def FORMAT_JSON : String := "json"

def FORMAT_CSV : String := "csv"

/-- The static per-resource column projections, as (display label, field key) pairs
in declaration order (`RESOURCES_LIST_PROPERTIES`). -/
def RESOURCES_LIST_PROPERTIES : List (String × List (String × String)) :=
  [("_default_", [("ID", "id")]),
   ("clients", [("ID", "id"), ("Organization created at", "organisation_created_at")]),
   ("customers", [("ID", "id"), ("E-mail", "email")]),
   ("orders", [("ID", "id"), ("Amount", "amount"), ("Status", "status"),
     ("Paid at", "paid_at")]),
   ("payments", [("ID", "id"), ("Amount", "amount"), ("Status", "status"),
     ("Paid at", "paid_at")]),
   ("profiles", [("ID", "id"), ("Name", "name"), ("E-mail", "email"),
     ("Status", "status")]),
   ("refunds", [("ID", "id"), ("Amount", "amount"), ("Status", "status"),
     ("Description", "description")])]

/-- The projection lookup at the top of `format_list_result`: the resource's own
projection, or the `"_default_"` projection on a `KeyError`. -/
def lookupProperties (resource_name : String) : List (String × String) :=
  match RESOURCES_LIST_PROPERTIES.lookup resource_name with
  | some props => props
  | none =>
    match RESOURCES_LIST_PROPERTIES.lookup "_default_" with
    | some props => props
    | none => []

/-! ## csv_format_value (src/mollie_cli/formatting.py, lines 79-91) -/

/-- The shape test applied by the ISO-8601 parser to a string.

Modelled from the spec: a string "formatted as an ISO-8601 date/time" is accepted;
this model requires the leading `YYYY-MM-DD` shape that every ISO-8601 date/time
starts with. (The precise grammar of `datetime.datetime.fromisoformat` lives in the
Python standard library, outside this repository; no claim depends on which strings
it accepts.) -/
def looksIsoDate (s : String) : Bool :=
  match s.data with
  | y1 :: y2 :: y3 :: y4 :: '-' :: m1 :: m2 :: '-' :: d1 :: d2 :: _ =>
    y1.isDigit && y2.isDigit && y3.isDigit && y4.isDigit &&
      m1.isDigit && m2.isDigit && d1.isDigit && d2.isDigit
  | _ => false

/-- Embedding of `datetime.datetime.fromisoformat`.

Modelled from the spec: the Python standard-library parser returns a datetime
object for an ISO-8601 string, raises `ValueError` on a string it cannot parse,
and raises `TypeError` when its argument is not a `str` at all. -/
def datetime_fromisoformat (value : Value) : Except PyError Value :=
  match value with
  | .vStr s =>
    if looksIsoDate s then .ok (.vDate s)
    else .error (.valueError ("Invalid isoformat string: \x27" ++ s ++ "\x27"))
  | _ => .error (.typeError "fromisoformat: argument must be str")

/-- Embedding of `csv_format_value`: `None` is returned as is; otherwise the value
is passed to the ISO-date probe, whose `ValueError` (unparseable string) is caught
and falls through to returning the value unchanged — any other exception
(in particular the `TypeError` for a non-string) propagates. -/
def csv_format_value (value : Value) : Except PyError Value :=
  if value = .vNone then .ok value
  else
    match datetime_fromisoformat value with
    | .ok d => .ok d
    | .error (.valueError _) => .ok value
    | .error e => .error e

/-! ## flatten_dict (src/mollie_cli/formatting.py, lines 60-76) -/

/-- Assignment `flattened[k] = v` on an insertion-ordered Python dict: an existing
key keeps its position and gets the new value, a new key is appended. -/
def dictInsert (d : List (String × Value)) (k : String) (v : Value) :
    List (String × Value) :=
  if d.any (fun p => p.1 = k) then
    d.map (fun p => if p.1 = k then (k, v) else p)
  else
    d ++ [(k, v)]

/-- Repeated dict assignment: `for key, value in items: flattened[key] = value`. -/
def dictInsertAll (d : List (String × Value)) (items : List (String × Value)) :
    List (String × Value) :=
  items.foldl (fun f kv => dictInsert f kv.1 kv.2) d

mutual
/-- The loop of `flatten_dict` over `data.items()`, carrying the `flattened` dict
built so far: a key `"_links"` is skipped, a primitive (str/int/bool) or `None`
value is assigned under the underscore-joined key, a dict value contributes the
items of its own recursive flattening, and any other value is dropped. -/
def flattenLoop : Entries → String → List (String × Value) → List (String × Value)
  | .nil, _, flattened => flattened
  | .cons key value rest, keyPre, flattened =>
    if key = "_links" then flattenLoop rest keyPre flattened
    else
      let final_key := if keyPre = "" then key else keyPre ++ "_" ++ key
      flattenLoop rest keyPre (flattenStep value final_key flattened)

/-- The per-value body of the `flatten_dict` loop. -/
def flattenStep : Value → String → List (String × Value) → List (String × Value)
  | .vStr s, final_key, flattened => dictInsert flattened final_key (.vStr s)
  | .vInt n, final_key, flattened => dictInsert flattened final_key (.vInt n)
  | .vBool b, final_key, flattened => dictInsert flattened final_key (.vBool b)
  | .vNone, final_key, flattened => dictInsert flattened final_key .vNone
  | .vDict sub, final_key, flattened =>
    dictInsertAll flattened (flattenLoop sub final_key [])
  | _, _, flattened => flattened
end

/-- Embedding of `flatten_dict` (the `key_prefix` parameter defaults to `""` at the
call site in `format_get_result`). -/
def flatten_dict (data : Entries) (keyPre : String) : List (String × Value) :=
  flattenLoop data keyPre []

mutual
/-- Removal of every `"_links"` section, at every nesting depth, from a dict. -/
def scrubEntries : Entries → Entries
  | .nil => .nil
  | .cons k v rest =>
    if k = "_links" then scrubEntries rest
    else .cons k (scrubValue v) (scrubEntries rest)

/-- Removal of every nested `"_links"` section from a value. -/
def scrubValue : Value → Value
  | .vDict d => .vDict (scrubEntries d)
  | v => v
end

/-! ## JSON serialization (json.dumps with indent=4)

Modelled from the spec: JSON mode serializes the raw record data "with stable key
ordering and fixed indentation (4 spaces)" and is re-parseable. `json.dumps` itself
is the Python standard library, outside this repository; the printer below follows
its output format for the value shapes that occur (null, booleans, integers,
strings with quote/backslash escaping, 4-space-indented arrays and objects), and a
datetime object is not serializable (`TypeError`), which the `jsonable` guard
reproduces. -/

/-- JSON escaping of one character: the quote and the backslash get a backslash. -/
def jsonEscapeChar (c : Char) : List Char :=
  if c = '"' || c = '\\' then ['\\', c] else [c]

/-- JSON escaping of a string body. -/
def jsonEscape : List Char → List Char
  | [] => []
  | c :: cs => jsonEscapeChar c ++ jsonEscape cs

/-- The newline-plus-indentation emitted before an element at nesting level `lvl`
when printing with `indent=4`. -/
def jsonNewlineIndent (lvl : Nat) : List Char :=
  '\n' :: List.replicate (4 * lvl) ' '

/-- Decimal digits of `n`, least significant first (`fuel` bounds the recursion and
is always called with `fuel > n`). -/
def printNatDigitsRev : Nat → Nat → List Char
  | 0, _ => []
  | fuel + 1, n =>
    if n = 0 then [] else Nat.digitChar (n % 10) :: printNatDigitsRev fuel (n / 10)

/-- Decimal notation of a natural number. -/
def printNat (n : Nat) : List Char :=
  if n = 0 then ['0'] else (printNatDigitsRev (n + 1) n).reverse

/-- Decimal notation of a Python integer. -/
def printInt : Int → List Char
  | .ofNat n => printNat n
  | .negSucc m => '-' :: printNat (m + 1)

mutual
/-- The characters `json.dumps(value, indent=4)` emits for a value sitting at
nesting level `lvl`. (A datetime never reaches this printer: `json_dumps` guards
with `jsonable` first, matching the `TypeError` the library would raise.) -/
def printVal : Value → Nat → List Char
  | .vNone, _ => ['n', 'u', 'l', 'l']
  | .vBool true, _ => ['t', 'r', 'u', 'e']
  | .vBool false, _ => ['f', 'a', 'l', 's', 'e']
  | .vInt n, _ => printInt n
  | .vStr s, _ => '"' :: (jsonEscape s.data ++ ['"'])
  | .vDate s, _ => '"' :: (jsonEscape s.data ++ ['"'])
  | .vList es, lvl => printElems es lvl true
  | .vDict ms, lvl => printEntries ms lvl true

/-- A JSON array (when `whole` is true: brackets around the indented elements,
`[]` if empty) or the continuation of one (each further element preceded by `,`
and a newline). -/
def printElems : Elems → Nat → Bool → List Char
  | .nil, _, whole => if whole then ['[', ']'] else []
  | .cons e rest, lvl, whole =>
    if whole then
      '[' :: (jsonNewlineIndent (lvl + 1) ++ printVal e (lvl + 1) ++
        printElems rest (lvl + 1) false ++ jsonNewlineIndent lvl ++ [']'])
    else
      ',' :: (jsonNewlineIndent lvl ++ printVal e lvl ++ printElems rest lvl false)

/-- A JSON object (when `whole` is true: braces around the indented members,
`\x7b\x7d` if empty) or the continuation of one; a member is printed as
`"key": value`. -/
def printEntries : Entries → Nat → Bool → List Char
  | .nil, _, whole => if whole then [Char.ofNat 123, Char.ofNat 125] else []
  | .cons k v rest, lvl, whole =>
    if whole then
      Char.ofNat 123 :: (jsonNewlineIndent (lvl + 1) ++
        ('"' :: (jsonEscape k.data ++ ('"' :: ':' :: ' ' :: printVal v (lvl + 1)))) ++
        printEntries rest (lvl + 1) false ++ jsonNewlineIndent lvl ++ [Char.ofNat 125])
    else
      ',' :: (jsonNewlineIndent lvl ++
        ('"' :: (jsonEscape k.data ++ ('"' :: ':' :: ' ' :: printVal v lvl))) ++
        printEntries rest lvl false)
end

/-- One `"key": value` member of a JSON object. -/
def printMember (v : Value) (lvl : Nat) (k : String) : List Char :=
  '"' :: (jsonEscape k.data ++ ('"' :: ':' :: ' ' :: printVal v lvl))

mutual
/-- Whether `json.dumps` accepts the value (a datetime anywhere raises `TypeError`). -/
def jsonable : Value → Bool
  | .vNone => true
  | .vStr _ => true
  | .vInt _ => true
  | .vBool _ => true
  | .vDate _ => false
  | .vDict ms => jsonableEntries ms
  | .vList es => jsonableElems es

/-- every dict member serializable. -/
def jsonableEntries : Entries → Bool
  | .nil => true
  | .cons _ v rest => jsonable v && jsonableEntries rest

/-- every sequence element serializable. -/
def jsonableElems : Elems → Bool
  | .nil => true
  | .cons e rest => jsonable e && jsonableElems rest
end

/-- Embedding of `json.dumps(value, indent=4)`: the indented text, or the
`TypeError` for data that is not JSON serializable. -/
def json_dumps (v : Value) : Except PyError String :=
  if jsonable v then .ok (String.mk (printVal v 0))
  else .error (.typeError "Object is not JSON serializable")

/-- A Python list value built from a Lean list of values. -/
def Elems.ofList : List Value → Elems
  | [] => .nil
  | v :: vs => .cons v (Elems.ofList vs)

/-- The list result as the Python value `json.dumps` receives in
`format_list_result`: the sequence of records. -/
def encodeRecords (result : List Record) : Value :=
  .vList (Elems.ofList (result.map Value.vDict))

/-! ## format_list_result (src/mollie_cli/formatting.py, lines 94-163) -/

/-- A rendered result: the JSON text, the rows handed to the CSV writer (header
row first; cells are the formatted values the writer stringifies), or the grid
handed to `tabulate` (header row first). -/
inductive Output where
  | json (text : String)
  | csvRows (rows : List (List Value))
  | table (grid : List (List Value))
  deriving DecidableEq, Repr

/-- The row-append condition of the CSV branch:
`type(value) in (str, int, bool) or value is None`. -/
def isPrimListValue (v : Value) : Bool :=
  match v with
  | .vStr _ => true
  | .vInt _ => true
  | .vBool _ => true
  | .vNone => true
  | _ => false

/-- Python 3 evaluation of the source's guard `value.keys() == ["currency", "value"]`:
`dict.keys()` returns a `dict_keys` view object, and comparing a view with a `list`
by `==` yields `False` for every dict (views compare equal only to sets and other
views, never to lists), so this guard, exactly as written in the source, is
constantly false and the amount-expansion branch below it is unreachable. -/
def pyDictKeysEqList (_entries : Entries) (_l : List String) : Bool :=
  false

/-- The body of the CSV branch's inner loop (`for key in properties.values()`),
updating `(headers, headers_to_remove, row)` for one projected field of one record.
The amount-expansion `elif` is transcribed even though its guard is constantly
false in Python 3 (see `pyDictKeysEqList`); inside that unreachable branch,
`headers.index(key)` is rendered with `List.indexOf` (the `ValueError` Python's
`list.index` raises on a missing element cannot be observed there). -/
def csvFieldStep (key : String) (value : Value)
    (headers h2r : List String) (row : List Value) :
    List String × List String × List Value :=
  if isPrimListValue value then
    (headers, h2r, row ++ [value])
  else
    match value with
    | .vDict entries =>
      if pyDictKeysEqList entries ["currency", "value"] then
        let expanded := entries.toList.foldl
          (fun (acc : List String × List Value) kv =>
            let new_header := key ++ "_" ++ kv.1
            let headers' :=
              if new_header ∈ acc.1 then acc.1
              else acc.1.insertIdx (acc.1.indexOf key) new_header
            (headers', acc.2 ++ [kv.2]))
          (headers, row)
        (expanded.1, h2r ++ [key], expanded.2)
      else
        (headers, h2r ++ [key], row)
    | _ => (headers, h2r ++ [key], row)

/-- The CSV branch's treatment of one record: fold the inner loop over the
projected field keys, starting from an empty `row`. -/
def csvObjStep (pkeys : List String) (obj : Record) (headers h2r : List String) :
    List String × List String × List Value :=
  pkeys.foldl
    (fun acc key => csvFieldStep key (pyGetAttr obj key) acc.1 acc.2.1 acc.2.2)
    (headers, h2r, [])

/-- The CSV branch's outer loop over the records, accumulating
`(headers, headers_to_remove, rows)` from the initial header list
`list(properties.values())`. -/
def csvBuildRows (pkeys : List String) (result : List Record) :
    List String × List String × List (List Value) :=
  result.foldl
    (fun acc obj =>
      let step := csvObjStep pkeys obj acc.1 acc.2.1
      (step.1, step.2.1, acc.2.2 ++ [step.2.2]))
    (pkeys, [], [])

/-- `for header in set(headers_to_remove): headers.remove(header)`: each marked
name is erased (first occurrence) once. Python iterates the `set` in an
unspecified order; erasures of distinct names commute, so the deduplicated list is
iterated in first-seen order. -/
def removeMarkedHeaders (headers h2r : List String) : List String :=
  h2r.dedup.foldl (fun hs h => hs.erase h) headers

/-- The CSV writer calls at the end of the CSV branch: the header row, then each
data row with `csv_format_value` applied to every cell. A raised exception aborts
the function before the buffered text is echoed, so nothing is emitted. -/
def writeCsvRows (headers : List String) (rows : List (List Value)) :
    Except PyError (List (List Value)) := do
  let formatted ← rows.mapM (fun row => row.mapM csv_format_value)
  pure ((headers.map Value.vStr) :: formatted)

/-- Embedding of `format_list_result`: dispatch on the `formatting` string into the
JSON dump of the raw records, the CSV pipeline over the projection's field keys, or
the tabulate grid headed by the projection's display labels; an unsupported
formatting raises `ClientError`. -/
def format_list_result (result : List Record) (resource_name : String)
    (formatting : String) : Except PyError Output :=
  let properties := lookupProperties resource_name
  if formatting = FORMAT_JSON then
    (json_dumps (encodeRecords result)).map Output.json
  else if formatting = FORMAT_CSV then
    let pkeys := properties.map Prod.snd
    let built := csvBuildRows pkeys result
    let headers := removeMarkedHeaders built.1 built.2.1
    (writeCsvRows headers built.2.2).map Output.csvRows
  else if formatting = FORMAT_TABLE then
    let header := properties.map (fun p => Value.vStr p.1)
    let table := result.foldl
      (fun t item => t ++ [properties.map (fun p => pyGetAttr item p.2)]) [header]
    .ok (Output.table table)
  else
    .error (.clientError ("Unsupported formatting: " ++ formatting))

/-! ## format_get_result, JSON and CSV branches (src/mollie_cli/formatting.py,
lines 166-183) -/

/-- The JSON branch of `format_get_result`: the raw record dumped with `indent=4`. -/
def format_get_result_json (result : Record) : Except PyError Output :=
  (json_dumps (Value.vDict result)).map Output.json

/-- The CSV branch of `format_get_result`: one header row and one data row built
from the flattened record, every value passed through `csv_format_value` (a raised
exception aborts the branch before anything is echoed). -/
def format_get_result_csv (result : Record) : Except PyError Output := do
  let flat := flatten_dict result ""
  let row ← (flat.map Prod.snd).mapM csv_format_value
  pure (Output.csvRows [flat.map (fun kv => Value.vStr kv.1), row])

/-- Text shown by the table renderer for one cell.

Modelled from the spec: the table renderer (the external `tabulate` library, with
its default `missingval`) prints a missing value (`None`) as an empty cell; the
other cases follow Python `str()` where the spec describes the cell content and
are unconstrained by any claim. -/
def tabulateCellText : Value → String
  | .vNone => ""
  | .vStr s => s
  | .vDate s => s
  | .vInt n => toString n
  | .vBool b => if b then "True" else "False"
  | .vDict _ => "dict"
  | .vList _ => "list"

/-- Values on which `csv_format_value` cannot hit the uncaught `TypeError` of the
ISO-date probe: everything except an `int` or a `bool`. -/
def csvSafeCell (v : Value) : Bool :=
  match v with
  | .vInt _ => false
  | .vBool _ => false
  | _ => true

/-- The value `csv_format_value` returns for a cell that does not raise: `None`
passes through, a string becomes a datetime when it parses as ISO-8601 and is
otherwise unchanged. -/
def csvFmtPure (v : Value) : Value :=
  match v with
  | .vStr s => if looksIsoDate s then .vDate s else .vStr s
  | v => v

/-! ## JSON parsing (json.loads)

Modelled from the spec: re-parsing the emitted JSON text must "yield data
structurally identical to the input records". The parser below accepts the
grammar the printer emits (`json.loads` itself is the Python standard library):
whitespace-tolerant, with a recursion-depth fuel that the top-level entry point
instantiates generously from the input length. -/

/-- JSON insignificant whitespace. -/
def isJsonWs (c : Char) : Bool :=
  c = ' ' || c = '\n' || c = '\t' || c = '\r'

/-- Decimal digit test (written as a closed enumeration so that facts about a
digit character are decidable by cases). -/
def isDigitChar (c : Char) : Bool :=
  decide (c ∈ ['0', '1', '2', '3', '4', '5', '6', '7', '8', '9'])

/-- Skipping insignificant whitespace. -/
def skipWs : List Char → List Char
  | [] => []
  | c :: rest => if isJsonWs c then skipWs rest else c :: rest

/-- Parsing the body of a JSON string after the opening quote, up to and past the
closing quote: a backslash makes the next character literal, any other character
stands for itself. -/
def parseStrBody : List Char → Option (List Char × List Char)
  | [] => none
  | c :: rest =>
    if c = '"' then some ([], rest)
    else if c = '\\' then
      match rest with
      | [] => none
      | e :: rest2 =>
        match parseStrBody rest2 with
        | some (s, r) => some (e :: s, r)
        | none => none
    else
      match parseStrBody rest with
      | some (s, r) => some (c :: s, r)
      | none => none

/-- Consuming a maximal run of decimal digits, extending the accumulator. -/
def parseDigits (acc : Nat) : List Char → Nat × List Char
  | [] => (acc, [])
  | c :: rest =>
    if isDigitChar c then parseDigits (acc * 10 + (c.toNat - 48)) rest
    else (acc, c :: rest)

mutual
/-- Parsing one JSON value (with recursion fuel), skipping leading whitespace. -/
def parseVal : Nat → List Char → Option (Value × List Char)
  | 0, _ => none
  | fuel + 1, input =>
    match skipWs input with
    | [] => none
    | c :: rest =>
      if c = 'n' then
        match rest with
        | c1 :: c2 :: c3 :: r =>
          if c1 = 'u' ∧ c2 = 'l' ∧ c3 = 'l' then some (.vNone, r) else none
        | _ => none
      else if c = 't' then
        match rest with
        | c1 :: c2 :: c3 :: r =>
          if c1 = 'r' ∧ c2 = 'u' ∧ c3 = 'e' then some (.vBool true, r) else none
        | _ => none
      else if c = 'f' then
        match rest with
        | c1 :: c2 :: c3 :: c4 :: r =>
          if c1 = 'a' ∧ c2 = 'l' ∧ c3 = 's' ∧ c4 = 'e' then some (.vBool false, r)
          else none
        | _ => none
      else if c = '"' then
        match parseStrBody rest with
        | some (s, r) => some (.vStr (String.mk s), r)
        | none => none
      else if c = '[' then
        match skipWs rest with
        | [] => none
        | c2 :: r =>
          if c2 = ']' then some (.vList .nil, r)
          else
            match parseVal fuel rest with
            | some (v, rest2) =>
              match parseElemsRest fuel rest2 with
              | some (es, rest3) => some (.vList (.cons v es), rest3)
              | none => none
            | none => none
      else if c = '\x7b' then
        match skipWs rest with
        | [] => none
        | c2 :: r =>
          if c2 = '\x7d' then some (.vDict .nil, r)
          else
            match parseMember fuel rest with
            | some (k, v, rest2) =>
              match parseMembersRest fuel rest2 with
              | some (ms, rest3) => some (.vDict (.cons k v ms), rest3)
              | none => none
            | none => none
      else if c = '-' then
        match rest with
        | [] => none
        | c2 :: rest2 =>
          if isDigitChar c2 then
            let p := parseDigits (c2.toNat - 48) rest2
            some (.vInt (-(p.1 : Int)), p.2)
          else none
      else if isDigitChar c then
        let p := parseDigits (c.toNat - 48) rest
        some (.vInt ((p.1 : Int)), p.2)
      else none

/-- Parsing one `"key": value` object member (with recursion fuel). -/
def parseMember : Nat → List Char → Option (String × Value × List Char)
  | 0, _ => none
  | fuel + 1, input =>
    match skipWs input with
    | c :: rest =>
      if c = '"' then
        match parseStrBody rest with
        | some (k, rest2) =>
          match skipWs rest2 with
          | [] => none
          | c2 :: rest3 =>
            if c2 = ':' then
              match parseVal fuel rest3 with
              | some (v, rest4) => some (String.mk k, v, rest4)
              | none => none
            else none
        | none => none
      else none
    | [] => none

/-- Parsing the rest of a JSON array after its first element: either `,` and a
further element, or the closing `]`. -/
def parseElemsRest : Nat → List Char → Option (Elems × List Char)
  | 0, _ => none
  | fuel + 1, input =>
    match skipWs input with
    | c :: rest =>
      if c = ',' then
        match parseVal fuel rest with
        | some (v, rest2) =>
          match parseElemsRest fuel rest2 with
          | some (es, rest3) => some (.cons v es, rest3)
          | none => none
        | none => none
      else if c = ']' then some (.nil, rest)
      else none
    | [] => none

/-- Parsing the rest of a JSON object after its first member: either `,` and a
further member, or the closing brace. -/
def parseMembersRest : Nat → List Char → Option (Entries × List Char)
  | 0, _ => none
  | fuel + 1, input =>
    match skipWs input with
    | c :: rest =>
      if c = ',' then
        match parseMember fuel rest with
        | some (k, v, rest2) =>
          match parseMembersRest fuel rest2 with
          | some (ms, rest3) => some (.cons k v ms, rest3)
          | none => none
        | none => none
      else if c = '\x7d' then some (.nil, rest)
      else none
    | [] => none
end

/-- Embedding of `json.loads`: parse one value (the fuel is instantiated from the
input length, which bounds any nesting depth) and require only trailing
whitespace after it. -/
def json_loads (s : String) : Option Value :=
  match parseVal (s.data.length + 1) s.data with
  | some (v, rest) => if skipWs rest = [] then some v else none
  | none => none

mutual
/-- Recursion-depth measure of a value used for the parser's fuel bounds. -/
def jsize : Value → Nat
  | .vNone => 1
  | .vStr _ => 1
  | .vInt _ => 1
  | .vBool _ => 1
  | .vDate _ => 1
  | .vDict ms => 1 + jsizeEntries ms
  | .vList es => 1 + jsizeElems es

/-- Fuel measure for the members of an object. -/
def jsizeEntries : Entries → Nat
  | .nil => 1
  | .cons _ v rest => 2 + jsize v + jsizeEntries rest

/-- Fuel measure for the elements of an array. -/
def jsizeElems : Elems → Nat
  | .nil => 1
  | .cons v rest => 2 + jsize v + jsizeElems rest
end

/-- No leading digit: the text following a printed number may not extend it. -/
def noDigitHead : List Char → Prop
  | [] => True
  | c :: _ => isDigitChar c = false

/-- Round-trip statement for one value: with enough fuel, parsing the printed
value (after any leading whitespace, and followed by text that cannot extend a
number) returns exactly the value and the following text. -/
def PrintsValRT (v : Value) (fuel : Nat) : Prop :=
  ∀ (ws rest : List Char) (lvl : Nat),
    (∀ c ∈ ws, isJsonWs c = true) → noDigitHead rest →
    parseVal fuel (ws ++ (printVal v lvl ++ rest)) = some (v, rest)

/-- Round-trip statement for an array continuation: parsing the printed further
elements followed by the closing bracket returns exactly those elements. -/
def ElemsRT (es : Elems) (fuel : Nat) : Prop :=
  ∀ (lvl lvl2 : Nat) (rest : List Char),
    parseElemsRest fuel
      (printElems es lvl false ++ (jsonNewlineIndent lvl2 ++ (']' :: rest))) =
      some (es, rest)

/-- Round-trip statement for an object continuation: parsing the printed further
members followed by the closing brace returns exactly those members. -/
def EntriesRT (ms : Entries) (fuel : Nat) : Prop :=
  ∀ (lvl lvl2 : Nat) (rest : List Char),
    parseMembersRest fuel
      (printEntries ms lvl false ++ (jsonNewlineIndent lvl2 ++ ('\x7d' :: rest))) =
      some (ms, rest)

/-! ## Claims C2-C5 -/

theorem isPrefixOf_self_chars : ∀ l : List Char, l.isPrefixOf l = true
  | [] => rfl
  | c :: r => by simp [List.isPrefixOf, isPrefixOf_self_chars r]

theorem pyIn_self (s : String) : pyIn s s = true := by
  unfold pyIn
  cases h : s.data with
  | nil => simp [strContainsSub, List.isEmpty]
  | cons c rest => simp [strContainsSub, isPrefixOf_self_chars]

theorem scanForIdMatch_eq_none (descriptors : List (String × String)) (resource_id : String)
    (h : ∀ d ∈ descriptors, pyStartsWith resource_id d.2 = false) :
    scanForIdMatch descriptors resource_id = none := by
  induction descriptors with
  | nil => rfl
  | cons d rest ih =>
    obtain ⟨name, pre⟩ := d
    have hd := h (name, pre) (List.mem_cons_self _ _)
    simp only [scanForIdMatch, hd, Bool.false_eq_true, if_false]
    exact ih (fun d hd' => h d (List.mem_cons_of_mem _ hd'))

theorem scanForIdMatch_first (earlier later : List (String × String))
    (name pre resource_id : String)
    (hearlier : ∀ d ∈ earlier, pyStartsWith resource_id d.2 = false)
    (hpre : pyStartsWith resource_id pre = true) :
    scanForIdMatch (earlier ++ (name, pre) :: later) resource_id = some name := by
  induction earlier with
  | nil => simp [scanForIdMatch, hpre]
  | cons d rest ih =>
    obtain ⟨n, p⟩ := d
    have hd := hearlier (n, p) (List.mem_cons_self _ _)
    simp only [List.cons_append, scanForIdMatch, hd, Bool.false_eq_true, if_false]
    exact ih (fun d hd' => hearlier d (List.mem_cons_of_mem _ hd'))

/-- C2: for every hint string that exactly equals the name of a known resource
descriptor, `find_resource_name` returns that name immediately, regardless of how
many other known names contain the hint as a substring. -/
theorem find_resource_name_exact_match (names : List String) (hint : String)
    (h : hint ∈ names) : find_resource_name names hint = .ok hint := by
  simp [find_resource_name, h]

theorem find_resource_name_exact_match_witness :
    "payments" ∈ ["payments", "payment_links"] ∧
    find_resource_name ["payments", "payment_links"] "payments" = .ok "payments" :=
  ⟨by decide, find_resource_name_exact_match _ _ (by decide)⟩

/-- C3: for every hint that is not exactly equal to any known resource name and is
a substring of two or more known names, `find_resource_name` raises `ClientError`
with a message listing exactly the matching candidate names. -/
theorem find_resource_name_ambiguous (names : List String) (hint : String)
    (hmem : hint ∉ names)
    (hlen : 2 ≤ (names.filter (fun name => pyIn hint name)).length) :
    find_resource_name names hint =
      .error (.clientError ("Hint matches multiple resources: " ++
        String.intercalate ", " (names.filter (fun name => pyIn hint name)))) := by
  rcases hfil : names.filter (fun name => pyIn hint name) with _ | ⟨a, _ | ⟨b, rest⟩⟩
  · rw [hfil] at hlen; simp at hlen
  · rw [hfil] at hlen; simp at hlen
  · simp [find_resource_name, hmem, hfil]

theorem find_resource_name_ambiguous_witness :
    "pay" ∉ ["payments", "payment_links", "refunds"] ∧
    2 ≤ (["payments", "payment_links", "refunds"].filter
      (fun name => pyIn "pay" name)).length ∧
    find_resource_name ["payments", "payment_links", "refunds"] "pay" =
      .error (.clientError "Hint matches multiple resources: payments, payment_links") :=
  ⟨by decide, by decide,
    by rw [find_resource_name_ambiguous _ _ (by decide) (by decide)]; rfl⟩

/-- C4: for every hint that is not a substring of any known resource name,
`find_resource_name` raises `ClientError` with a message listing all known
resource names. -/
theorem find_resource_name_unknown (names : List String) (hint : String)
    (h : ∀ name ∈ names, pyIn hint name = false) :
    find_resource_name names hint =
      .error (.clientError ("No resource found for name \x27" ++ hint ++ "\x27, " ++
        "use one of: " ++ String.intercalate ", " names)) := by
  have hmem : hint ∉ names := by
    intro hm
    have hfalse := h hint hm
    rw [pyIn_self] at hfalse
    exact Bool.noConfusion hfalse
  have hfil : names.filter (fun name => pyIn hint name) = [] := by
    apply List.filter_eq_nil_iff.mpr
    intro a ha
    simp [h a ha]
  simp [find_resource_name, hmem, hfil]

theorem find_resource_name_unknown_witness :
    (∀ name ∈ ["payments", "refunds"], pyIn "zzz" name = false) ∧
    find_resource_name ["payments", "refunds"] "zzz" =
      .error (.clientError
        "No resource found for name \x27zzz\x27, use one of: payments, refunds") :=
  ⟨by decide, by rw [find_resource_name_unknown _ _ (by decide)]; rfl⟩

/-- C5: for every resource id, the no-hint path of `get` scans the known
descriptors in their stable enumeration order and returns the name of the first
descriptor whose id-prefix is a literal prefix of the resource id; if no known
id-prefix is a prefix of the id, it raises `ClientError` ("Cannot find a resource
for id ..."). Descriptor names are attribute names of the vendor client and hence
nonempty. -/
theorem get_resource_name_by_id_spec (descriptors : List (String × String))
    (resource_id : String) (hne : ∀ d ∈ descriptors, d.1 ≠ "") :
    ((∀ d ∈ descriptors, pyStartsWith resource_id d.2 = false) →
      get_resource_name_by_id descriptors resource_id =
        .error (.clientError ("Cannot find a resource for id \x27" ++
          resource_id ++ "\x27"))) ∧
    (∀ (earlier later : List (String × String)) (name pre : String),
      descriptors = earlier ++ (name, pre) :: later →
      (∀ d ∈ earlier, pyStartsWith resource_id d.2 = false) →
      pyStartsWith resource_id pre = true →
      get_resource_name_by_id descriptors resource_id = .ok name) := by
  constructor
  · intro hall
    unfold get_resource_name_by_id
    rw [scanForIdMatch_eq_none descriptors resource_id hall]
  · intro earlier later name pre heq hearlier hpre
    have hname : name ≠ "" := by
      apply hne (name, pre)
      rw [heq]
      exact List.mem_append_right _ (List.mem_cons_self _ _)
    unfold get_resource_name_by_id
    rw [heq, scanForIdMatch_first earlier later name pre resource_id hearlier hpre]
    simp [hname]

theorem get_resource_name_by_id_spec_witness :
    (∀ d ∈ [("payments", "tr_"), ("refunds", "re_")], d.1 ≠ "") ∧
    pyStartsWith "re_abc" "re_" = true ∧
    get_resource_name_by_id [("payments", "tr_"), ("refunds", "re_")] "re_abc" =
      .ok "refunds" :=
  ⟨by decide, by decide,
    (get_resource_name_by_id_spec _ _ (by decide)).2
      [("payments", "tr_")] [] "refunds" "re_" rfl (by decide) (by decide)⟩

/-! ## Claims C1, C10, and the C6 counterexample -/

/-- C1 (code bug): rendering a record whose `amount` field is the compound
`currency`/`value` sub-structure in CSV mode does NOT expand it into
`amount_currency`/`amount_value` columns: the source's guard
`value.keys() == ["currency", "value"]` is constantly false in Python 3 (see
`pyDictKeysEqList`), so the expansion branch the code comments as "It's an
amount, let's add an exception" is unreachable and the `amount` column is
dropped like any other unsupported value. -/
theorem format_list_csv_amount_column_dropped :
    format_list_result
      [Entries.cons "id" (.vStr "tr_7UhSN")
        (Entries.cons "amount"
          (.vDict (Entries.cons "currency" (.vStr "EUR")
            (Entries.cons "value" (.vStr "10.00") .nil)))
          (Entries.cons "status" (.vStr "paid")
            (Entries.cons "paid_at" .vNone .nil)))]
      "payments" FORMAT_CSV =
      .ok (.csvRows
        [[.vStr "id", .vStr "status", .vStr "paid_at"],
         [.vStr "tr_7UhSN", .vStr "paid", .vNone]]) ∧
    Value.vStr "amount_currency" ∉
      [Value.vStr "id", Value.vStr "status", Value.vStr "paid_at"] := by
  constructor
  · decide
  · decide

/-- C10: CSV rendering of an integer or boolean cell raises an uncaught
`TypeError` from the ISO-date probe (only the `ValueError` of an unparseable
string is caught and falls through to returning the value unchanged), both in
`format_list_result` and in `format_get_result`'s CSV branch. -/
theorem csv_format_value_type_error :
    csv_format_value (.vInt 7) =
      .error (.typeError "fromisoformat: argument must be str") ∧
    csv_format_value (.vBool true) =
      .error (.typeError "fromisoformat: argument must be str") ∧
    csv_format_value (.vStr "hello") = .ok (.vStr "hello") ∧
    format_list_result [Entries.cons "id" (.vInt 7) .nil] "products" FORMAT_CSV =
      .error (.typeError "fromisoformat: argument must be str") ∧
    format_get_result_csv (Entries.cons "paid" (.vBool true) .nil) =
      .error (.typeError "fromisoformat: argument must be str") := by
  refine ⟨by decide, by decide, by decide, by decide, by decide⟩

/-- C6 (counterexample): with a field that is a string on one record and an
unsupported value on another, the CSV output is not rectangular: the column is
removed from the header row, but the record with the supported value keeps its
cell, so that data row has more cells than the header row. -/
theorem format_list_csv_ragged_counterexample :
    format_list_result
      [Entries.cons "id" (.vStr "cst_1") (Entries.cons "email" (.vStr "a@x") .nil),
       Entries.cons "id" (.vStr "cst_2") (Entries.cons "email" (.vList .nil) .nil)]
      "customers" FORMAT_CSV =
      .ok (.csvRows
        [[.vStr "id"],
         [.vStr "cst_1", .vStr "a@x"],
         [.vStr "cst_2"]]) ∧
    ([Value.vStr "cst_1", Value.vStr "a@x"].length ≠ [Value.vStr "id"].length) := by
  constructor
  · decide
  · decide

/-! ## Claim C7 -/

theorem foldl_snoc_map {α β : Type} (f : α → β) :
    ∀ (l : List α) (init : List β),
      l.foldl (fun t x => t ++ [f x]) init = init ++ l.map f
  | [], init => by simp
  | x :: xs, init => by
    simp only [List.foldl_cons, List.map_cons]
    rw [foldl_snoc_map f xs (init ++ [f x])]
    simp

/-- C7: in TABLE mode, `format_list_result` always produces a grid whose first
row is the projection's display labels, with one further row per record and one
cell per projected field, the cell being the attribute value read by field key;
a field missing from a record's payload reads as `None` and the table renderer
shows `None` as an empty cell, so a missing field never fails the operation. -/
theorem format_list_table_spec (result : List Record) (resource_name : String) :
    format_list_result result resource_name FORMAT_TABLE =
      .ok (.table
        ((lookupProperties resource_name).map (fun p => Value.vStr p.1) ::
          result.map (fun item =>
            (lookupProperties resource_name).map (fun p => pyGetAttr item p.2)))) ∧
    (∀ (item : Record) (key : String),
      Entries.lookup item key = none → pyGetAttr item key = Value.vNone) ∧
    tabulateCellText Value.vNone = "" := by
  refine ⟨?_, ?_, rfl⟩
  · unfold format_list_result
    rw [if_neg (by decide), if_neg (by decide), if_pos rfl]
    dsimp only
    rw [foldl_snoc_map]
    simp
  · intro item key h
    simp [pyGetAttr, h]

/-- C7 witness: a customers record with no `email` field renders as a table row
with an empty second cell. -/
theorem format_list_table_spec_witness :
    format_list_result [Entries.cons "id" (.vStr "cst_9") .nil] "customers"
      FORMAT_TABLE =
      .ok (.table
        [[Value.vStr "ID", Value.vStr "E-mail"],
         [Value.vStr "cst_9", Value.vNone]]) ∧
    Entries.lookup (Entries.cons "id" (.vStr "cst_9") .nil) "email" = none ∧
    pyGetAttr (Entries.cons "id" (.vStr "cst_9") .nil) "email" = Value.vNone ∧
    tabulateCellText Value.vNone = "" :=
  ⟨by rw [(format_list_table_spec [Entries.cons "id" (.vStr "cst_9") .nil]
      "customers").1]; rfl,
   rfl,
   (format_list_table_spec [Entries.cons "id" (.vStr "cst_9") .nil]
      "customers").2.1 _ "email" rfl,
   (format_list_table_spec [Entries.cons "id" (.vStr "cst_9") .nil]
      "customers").2.2⟩

/-! ## Claim C6 (amended): characterization of the CSV branch of format_list_result -/

theorem csvFieldStep_eq (key : String) (value : Value)
    (headers h2r : List String) (row : List Value) :
    csvFieldStep key value headers h2r row =
      if isPrimListValue value then (headers, h2r, row ++ [value])
      else (headers, h2r ++ [key], row) := by
  cases value <;> simp [csvFieldStep, isPrimListValue, pyDictKeysEqList]

theorem csvFieldFold_eq (obj : Record) :
    ∀ (pkeys : List String) (headers h2r : List String) (row : List Value),
      pkeys.foldl
        (fun acc key => csvFieldStep key (pyGetAttr obj key) acc.1 acc.2.1 acc.2.2)
        (headers, h2r, row) =
      (headers,
       h2r ++ pkeys.filter (fun k => !isPrimListValue (pyGetAttr obj k)),
       row ++ (pkeys.filter (fun k => isPrimListValue (pyGetAttr obj k))).map
         (fun k => pyGetAttr obj k))
  | [], headers, h2r, row => by simp
  | k :: rest, headers, h2r, row => by
    rw [List.foldl_cons]
    rw [csvFieldStep_eq]
    cases hp : isPrimListValue (pyGetAttr obj k) with
    | true =>
      rw [if_pos rfl]
      dsimp only
      rw [csvFieldFold_eq obj rest headers h2r (row ++ [pyGetAttr obj k])]
      simp [List.filter_cons, hp]
    | false =>
      rw [if_neg (by simp)]
      dsimp only
      rw [csvFieldFold_eq obj rest headers (h2r ++ [k]) row]
      simp [List.filter_cons, hp]

theorem csvObjStep_eq (pkeys : List String) (obj : Record) (headers h2r : List String) :
    csvObjStep pkeys obj headers h2r =
      (headers,
       h2r ++ pkeys.filter (fun k => !isPrimListValue (pyGetAttr obj k)),
       (pkeys.filter (fun k => isPrimListValue (pyGetAttr obj k))).map
         (fun k => pyGetAttr obj k)) := by
  unfold csvObjStep
  rw [csvFieldFold_eq obj pkeys headers h2r []]
  simp

theorem csvBuildFold_eq (pkeys : List String) :
    ∀ (result : List Record) (headers h2r : List String) (rows : List (List Value)),
      result.foldl
        (fun acc obj =>
          let step := csvObjStep pkeys obj acc.1 acc.2.1
          (step.1, step.2.1, acc.2.2 ++ [step.2.2]))
        (headers, h2r, rows) =
      (headers,
       h2r ++ (result.map (fun obj =>
         pkeys.filter (fun k => !isPrimListValue (pyGetAttr obj k)))).flatten,
       rows ++ result.map (fun obj =>
         (pkeys.filter (fun k => isPrimListValue (pyGetAttr obj k))).map
           (fun k => pyGetAttr obj k)))
  | [], headers, h2r, rows => by simp
  | obj :: rest, headers, h2r, rows => by
    rw [List.foldl_cons]
    dsimp only
    rw [csvObjStep_eq]
    rw [csvBuildFold_eq pkeys rest]
    simp

theorem csvBuildRows_eq (pkeys : List String) (result : List Record) :
    csvBuildRows pkeys result =
      (pkeys,
       (result.map (fun obj =>
         pkeys.filter (fun k => !isPrimListValue (pyGetAttr obj k)))).flatten,
       result.map (fun obj =>
         (pkeys.filter (fun k => isPrimListValue (pyGetAttr obj k))).map
           (fun k => pyGetAttr obj k))) := by
  unfold csvBuildRows
  rw [csvBuildFold_eq pkeys result pkeys [] []]
  simp

theorem foldl_erase_eq_filter :
    ∀ (rem hs : List String), hs.Nodup →
      rem.foldl (fun acc h => acc.erase h) hs =
        hs.filter (fun k => decide (k ∉ rem))
  | [], hs, _ => by simp
  | r :: rem', hs, hn => by
    simp only [List.foldl_cons]
    rw [foldl_erase_eq_filter rem' (hs.erase r) (hn.erase r)]
    rw [hn.erase_eq_filter r]
    rw [List.filter_filter]
    apply List.filter_congr
    intro k _
    by_cases hkr : k = r <;> by_cases hkm : k ∈ rem' <;> simp [hkr, hkm]

theorem removeMarkedHeaders_eq_filter (headers h2r : List String)
    (h : headers.Nodup) :
    removeMarkedHeaders headers h2r =
      headers.filter (fun k => decide (k ∉ h2r)) := by
  unfold removeMarkedHeaders
  rw [foldl_erase_eq_filter h2r.dedup headers h]
  apply List.filter_congr
  intro k _
  simp [List.mem_dedup]

theorem lookup_mem_values {α β : Type} [BEq α] :
    ∀ (l : List (α × β)) (k : α) (v : β),
      l.lookup k = some v → v ∈ l.map Prod.snd
  | [], _, _, h => by simp [List.lookup] at h
  | (a, b) :: rest, k, v, h => by
    rw [List.lookup] at h
    cases hk : (k == a) with
    | true =>
      rw [hk] at h
      simp only [Option.some.injEq] at h
      simp [h]
    | false =>
      rw [hk] at h
      simp only [List.map_cons, List.mem_cons]
      exact Or.inr (lookup_mem_values rest k v h)

theorem lookupProperties_keys_nodup (resource_name : String) :
    ((lookupProperties resource_name).map Prod.snd).Nodup := by
  unfold lookupProperties
  rcases hl : RESOURCES_LIST_PROPERTIES.lookup resource_name with _ | props
  · decide
  · have hmem := lookup_mem_values RESOURCES_LIST_PROPERTIES resource_name props hl
    simp only [RESOURCES_LIST_PROPERTIES, List.map_cons, List.mem_cons,
      List.map_nil, List.not_mem_nil, or_false] at hmem
    rcases hmem with h | h | h | h | h | h | h <;> subst h <;> decide

theorem csv_format_value_ok (v : Value) (hp : isPrimListValue v = true)
    (hs : csvSafeCell v = true) :
    csv_format_value v = .ok (csvFmtPure v) := by
  cases v with
  | vStr s =>
    simp only [csv_format_value, datetime_fromisoformat, csvFmtPure]
    rw [if_neg (fun h => Value.noConfusion h)]
    cases hiso : looksIsoDate s <;> simp [hiso]
  | vNone => rfl
  | vInt n => simp [csvSafeCell] at hs
  | vBool b => simp [csvSafeCell] at hs
  | vDate s => simp [isPrimListValue] at hp
  | vDict d => simp [isPrimListValue] at hp
  | vList es => simp [isPrimListValue] at hp

theorem exceptMapM_ok {α β : Type} (f : α → Except PyError β) (g : α → β) :
    ∀ (l : List α), (∀ x ∈ l, f x = .ok (g x)) → l.mapM f = .ok (l.map g)
  | [], _ => rfl
  | x :: xs, h => by
    rw [List.mapM_cons, h x (List.mem_cons_self _ _),
      exceptMapM_ok f g xs (fun y hy => h y (List.mem_cons_of_mem _ hy))]
    rfl

/-- C6 (amended): in CSV mode a projected field whose value is unsupported in a
given record contributes no cell to that record's row, and the field's column is
removed from the header row (it is removed once even if unsupported in several
records); rows of records where the field's value IS supported keep their cell,
so the header row only matches every data row's cell count when each field is
supported uniformly across the records. Values reaching the writer go through the
ISO-date probe, so the retained cells must not be ints or bools (claim C10). -/
theorem format_list_csv_drop_spec (result : List Record) (resource_name : String)
    (hsafe : ∀ obj ∈ result, ∀ key ∈ (lookupProperties resource_name).map Prod.snd,
      csvSafeCell (pyGetAttr obj key) = true) :
    format_list_result result resource_name FORMAT_CSV =
      .ok (.csvRows (
        ((((lookupProperties resource_name).map Prod.snd).filter
          (fun key => result.all (fun obj => isPrimListValue (pyGetAttr obj key)))).map
            Value.vStr) ::
        result.map (fun obj =>
          (((lookupProperties resource_name).map Prod.snd).filter
            (fun key => isPrimListValue (pyGetAttr obj key))).map
            (fun key => csvFmtPure (pyGetAttr obj key))))) := by
  unfold format_list_result
  rw [if_neg (by decide), if_pos rfl]
  dsimp only
  rw [csvBuildRows_eq]
  dsimp only
  rw [removeMarkedHeaders_eq_filter _ _ (lookupProperties_keys_nodup resource_name)]
  have hflt :
      ((lookupProperties resource_name).map Prod.snd).filter
        (fun k => decide (k ∉ (result.map (fun obj =>
          ((lookupProperties resource_name).map Prod.snd).filter
            (fun k' => !isPrimListValue (pyGetAttr obj k')))).flatten)) =
      ((lookupProperties resource_name).map Prod.snd).filter
        (fun key => result.all (fun obj => isPrimListValue (pyGetAttr obj key))) := by
    apply List.filter_congr
    intro k hk
    cases hall : result.all (fun obj => isPrimListValue (pyGetAttr obj k)) with
    | true =>
      have hnotmem : k ∉ (result.map (fun obj =>
          ((lookupProperties resource_name).map Prod.snd).filter
            (fun k' => !isPrimListValue (pyGetAttr obj k')))).flatten := by
        simp only [List.mem_flatten, List.mem_map]
        rintro ⟨l, ⟨obj, hobj, rfl⟩, hkl⟩
        rw [List.mem_filter] at hkl
        have hpk := List.all_eq_true.mp hall obj hobj
        rw [hpk] at hkl
        simp at hkl
      simp [hnotmem]
    | false =>
      have hmem : k ∈ (result.map (fun obj =>
          ((lookupProperties resource_name).map Prod.snd).filter
            (fun k' => !isPrimListValue (pyGetAttr obj k')))).flatten := by
        have hex : ¬ ∀ obj ∈ result, isPrimListValue (pyGetAttr obj k) = true := by
          intro hforall
          rw [List.all_eq_true.mpr hforall] at hall
          exact Bool.noConfusion hall
        push_neg at hex
        obtain ⟨obj, hobj, hbad⟩ := hex
        simp only [Bool.not_eq_true] at hbad
        simp only [List.mem_flatten, List.mem_map]
        exact ⟨_, ⟨obj, hobj, rfl⟩, List.mem_filter.mpr ⟨hk, by simp [hbad]⟩⟩
      simp [hmem]
  rw [hflt]
  unfold writeCsvRows
  have hrows : ∀ row ∈ result.map (fun obj =>
      (((lookupProperties resource_name).map Prod.snd).filter
        (fun k => isPrimListValue (pyGetAttr obj k))).map (fun k => pyGetAttr obj k)),
      row.mapM csv_format_value = .ok (row.map csvFmtPure) := by
    intro row hrow
    rw [List.mem_map] at hrow
    obtain ⟨obj, hobj, rfl⟩ := hrow
    apply exceptMapM_ok
    intro x hx
    rw [List.mem_map] at hx
    obtain ⟨k, hkf, rfl⟩ := hx
    rw [List.mem_filter] at hkf
    exact csv_format_value_ok _ hkf.2 (hsafe obj hobj k hkf.1)
  rw [exceptMapM_ok _ _ _ hrows]
  simp [Except.map, Function.comp_def, List.map_map]

/-- C6 witness: on a customers list where `email` is a string on the first record
and an unsupported value on the second, the header keeps only `id` while the first
data row still has two cells. -/
theorem format_list_csv_drop_spec_witness :
    (∀ obj ∈ [Entries.cons "id" (.vStr "cst_7") (Entries.cons "email" (.vStr "x@y") .nil),
              Entries.cons "id" (.vStr "cst_8") (Entries.cons "email" (.vDict .nil) .nil)],
      ∀ key ∈ (lookupProperties "customers").map Prod.snd,
        csvSafeCell (pyGetAttr obj key) = true) ∧
    format_list_result
      [Entries.cons "id" (.vStr "cst_7") (Entries.cons "email" (.vStr "x@y") .nil),
       Entries.cons "id" (.vStr "cst_8") (Entries.cons "email" (.vDict .nil) .nil)]
      "customers" FORMAT_CSV =
      .ok (.csvRows
        [[.vStr "id"],
         [.vStr "cst_7", .vStr "x@y"],
         [.vStr "cst_8"]]) :=
  ⟨by decide, by rw [format_list_csv_drop_spec _ _ (by decide)]; decide⟩

/-! ## Claim C9: flatten_dict and the CSV branch of format_get_result -/

theorem dictInsert_keys (d : List (String × Value)) (k : String) (v : Value) :
    (dictInsert d k v).map Prod.fst =
      if d.any (fun p => p.1 = k) then d.map Prod.fst else d.map Prod.fst ++ [k] := by
  unfold dictInsert
  split
  · rw [List.map_map]
    apply List.map_congr_left
    intro p _
    by_cases hp : p.1 = k <;> simp [hp]
  · simp

theorem dictInsert_keys_nodup (d : List (String × Value)) (k : String) (v : Value)
    (h : (d.map Prod.fst).Nodup) : ((dictInsert d k v).map Prod.fst).Nodup := by
  rw [dictInsert_keys]
  split
  · exact h
  · rename_i hany
    have hk : k ∉ d.map Prod.fst := by
      intro hkmem
      rw [List.mem_map] at hkmem
      obtain ⟨p, hp, hpk⟩ := hkmem
      exact hany (List.any_eq_true.mpr ⟨p, hp, by simp [hpk]⟩)
    simp [List.nodup_append, h, hk]

theorem dictInsertAll_keys_nodup (items : List (String × Value)) :
    ∀ d, (d.map Prod.fst).Nodup → ((dictInsertAll d items).map Prod.fst).Nodup := by
  induction items with
  | nil => intro d h; exact h
  | cons kv rest ih => intro d h; exact ih _ (dictInsert_keys_nodup d kv.1 kv.2 h)

theorem flattenStep_keys_nodup (v : Value) (fk : String) (acc : List (String × Value))
    (h : (acc.map Prod.fst).Nodup) : ((flattenStep v fk acc).map Prod.fst).Nodup := by
  cases v with
  | vStr s => exact dictInsert_keys_nodup acc fk _ h
  | vInt n => exact dictInsert_keys_nodup acc fk _ h
  | vBool b => exact dictInsert_keys_nodup acc fk _ h
  | vNone => exact dictInsert_keys_nodup acc fk _ h
  | vDict sub => exact dictInsertAll_keys_nodup _ acc h
  | vDate s => exact h
  | vList es => exact h

theorem flattenLoop_keys_nodup :
    ∀ (d : Entries) (p : String) (acc : List (String × Value)),
      (acc.map Prod.fst).Nodup → ((flattenLoop d p acc).map Prod.fst).Nodup
  | .nil, _, _, h => h
  | .cons k v rest, p, acc, h => by
    rw [flattenLoop]
    split
    · exact flattenLoop_keys_nodup rest p acc h
    · exact flattenLoop_keys_nodup rest p _ (flattenStep_keys_nodup v _ acc h)

theorem dictInsert_not_mem (d : List (String × Value)) (k : String) (v : Value)
    (h : k ∉ d.map Prod.fst) : dictInsert d k v = d ++ [(k, v)] := by
  unfold dictInsert
  rw [if_neg]
  intro hany
  rw [List.any_eq_true] at hany
  obtain ⟨p, hp, hpk⟩ := hany
  rw [decide_eq_true_eq] at hpk
  exact h (List.mem_map.mpr ⟨p, hp, hpk⟩)

theorem dictInsertAll_disjoint :
    ∀ (items : List (String × Value)) (d : List (String × Value)),
      (items.map Prod.fst).Nodup →
      (∀ k ∈ items.map Prod.fst, k ∉ d.map Prod.fst) →
      dictInsertAll d items = d ++ items
  | [], d, _, _ => by simp [dictInsertAll]
  | (k, v) :: rest, d, hn, hdisj => by
    have hstep : dictInsertAll d ((k, v) :: rest) =
        dictInsertAll (dictInsert d k v) rest := rfl
    rw [List.map_cons, List.nodup_cons] at hn
    have hdisj' : ∀ k' ∈ rest.map Prod.fst, k' ∉ (d ++ [(k, v)]).map Prod.fst := by
      intro k' hk'
      rw [List.map_append, List.mem_append]
      rintro (hd | hs)
      · exact hdisj k' (by simp [hk']) hd
      · simp only [List.map_cons, List.map_nil, List.mem_singleton] at hs
        rw [hs] at hk'
        exact hn.1 hk'
    rw [hstep, dictInsert_not_mem d k v (hdisj k (by simp)),
      dictInsertAll_disjoint rest (d ++ [(k, v)]) hn.2 hdisj']
    simp

theorem dictInsertAll_nil_of_nodup (items : List (String × Value))
    (h : (items.map Prod.fst).Nodup) : dictInsertAll [] items = items := by
  have := dictInsertAll_disjoint items [] h (by simp)
  simpa using this

mutual
theorem flattenLoop_scrub :
    ∀ (d : Entries) (p : String) (acc : List (String × Value)),
      flattenLoop (scrubEntries d) p acc = flattenLoop d p acc
  | .nil, _, _ => rfl
  | .cons k v rest, p, acc => by
    by_cases hk : k = "_links"
    · rw [scrubEntries, if_pos hk, flattenLoop, if_pos hk]
      exact flattenLoop_scrub rest p acc
    · rw [scrubEntries, if_neg hk, flattenLoop, if_neg hk, flattenLoop, if_neg hk]
      dsimp only
      rw [flattenStep_scrub v _ acc]
      exact flattenLoop_scrub rest p _

theorem flattenStep_scrub :
    ∀ (v : Value) (fk : String) (acc : List (String × Value)),
      flattenStep (scrubValue v) fk acc = flattenStep v fk acc
  | .vDict d, fk, acc => by
    rw [scrubValue, flattenStep, flattenStep]
    rw [flattenLoop_scrub d fk []]
  | .vNone, _, _ => rfl
  | .vStr _, _, _ => rfl
  | .vInt _, _, _ => rfl
  | .vBool _, _, _ => rfl
  | .vDate _, _, _ => rfl
  | .vList _, _, _ => rfl
end

theorem dictInsert_values_prim (d : List (String × Value)) (k : String) (v : Value)
    (hd : ∀ kv ∈ d, isPrimListValue kv.2 = true) (hv : isPrimListValue v = true) :
    ∀ kv ∈ dictInsert d k v, isPrimListValue kv.2 = true := by
  unfold dictInsert
  split
  · intro kv hkv
    rw [List.mem_map] at hkv
    obtain ⟨p, hp, rfl⟩ := hkv
    by_cases hpk : p.1 = k
    · simp [hpk, hv]
    · simp [hpk]
      exact hd p hp
  · intro kv hkv
    rw [List.mem_append] at hkv
    rcases hkv with hkv | hkv
    · exact hd kv hkv
    · rw [List.mem_singleton] at hkv
      rw [hkv]
      exact hv

theorem dictInsertAll_values_prim :
    ∀ (items : List (String × Value)) (d : List (String × Value)),
      (∀ kv ∈ d, isPrimListValue kv.2 = true) →
      (∀ kv ∈ items, isPrimListValue kv.2 = true) →
      ∀ kv ∈ dictInsertAll d items, isPrimListValue kv.2 = true
  | [], d, hd, _ => hd
  | kv0 :: rest, d, hd, hitems => by
    have hstep : dictInsertAll d (kv0 :: rest) =
        dictInsertAll (dictInsert d kv0.1 kv0.2) rest := rfl
    rw [hstep]
    exact dictInsertAll_values_prim rest _
      (dictInsert_values_prim d kv0.1 kv0.2 hd (hitems kv0 (by simp)))
      (fun kv hkv => hitems kv (List.mem_cons_of_mem _ hkv))

mutual
theorem flattenLoop_values_prim :
    ∀ (d : Entries) (p : String) (acc : List (String × Value)),
      (∀ kv ∈ acc, isPrimListValue kv.2 = true) →
      ∀ kv ∈ flattenLoop d p acc, isPrimListValue kv.2 = true
  | .nil, _, _, h => h
  | .cons k v rest, p, acc, h => by
    rw [flattenLoop]
    split
    · exact flattenLoop_values_prim rest p acc h
    · exact flattenLoop_values_prim rest p _ (flattenStep_values_prim v _ acc h)

theorem flattenStep_values_prim :
    ∀ (v : Value) (fk : String) (acc : List (String × Value)),
      (∀ kv ∈ acc, isPrimListValue kv.2 = true) →
      ∀ kv ∈ flattenStep v fk acc, isPrimListValue kv.2 = true
  | .vStr s, fk, acc, h => dictInsert_values_prim acc fk _ h rfl
  | .vInt n, fk, acc, h => dictInsert_values_prim acc fk _ h rfl
  | .vBool b, fk, acc, h => dictInsert_values_prim acc fk _ h rfl
  | .vNone, fk, acc, h => dictInsert_values_prim acc fk _ h rfl
  | .vDict sub, fk, acc, h =>
    dictInsertAll_values_prim (flattenLoop sub fk []) acc h
      (flattenLoop_values_prim sub fk [] (by intro kv hkv; simp at hkv))
  | .vDate _, _, _, h => h
  | .vList _, _, _, h => h
end

theorem flatten_dict_single_dict (key : String) (sub : Entries) (p : String)
    (h : key ≠ "_links") :
    flatten_dict (Entries.cons key (.vDict sub) .nil) p =
      flatten_dict sub (if p = "" then key else p ++ "_" ++ key) := by
  unfold flatten_dict
  rw [flattenLoop, if_neg h]
  show flattenStep (.vDict sub) _ [] = _
  rw [flattenStep]
  exact dictInsertAll_nil_of_nodup _
    (flattenLoop_keys_nodup sub _ [] (by simp))

/-- C9 (amended): the CSV branch of `format_get_result` emits exactly one header
row and one data row built from the flattened record — provided every flattened
value is a string or `None` (an int or bool flattened value hits the CSV
date-probe with a non-string and raises the uncaught `TypeError` of claim C10,
emitting nothing). A `"_links"` key contributes nothing at any nesting depth
(flattening a record is the same as flattening the record with every `"_links"`
section removed), and a nested dict under key `k` contributes exactly its own
flattening under the underscore-joined composite prefix (so a nested `value`
under `amount` surfaces as `amount_value`). -/
theorem format_get_result_csv_spec :
    (∀ (result : Record),
      (∀ kv ∈ flatten_dict result "", csvSafeCell kv.2 = true) →
      format_get_result_csv result = .ok (.csvRows
        [(flatten_dict result "").map (fun kv => Value.vStr kv.1),
         (flatten_dict result "").map (fun kv => csvFmtPure kv.2)])) ∧
    (∀ (d : Entries) (p : String), flatten_dict (scrubEntries d) p = flatten_dict d p) ∧
    (∀ (key : String) (sub : Entries) (p : String), key ≠ "_links" →
      flatten_dict (Entries.cons key (.vDict sub) .nil) p =
        flatten_dict sub (if p = "" then key else p ++ "_" ++ key)) := by
  refine ⟨?_, ?_, flatten_dict_single_dict⟩
  · intro result h
    unfold format_get_result_csv
    have hvals : ∀ v ∈ (flatten_dict result "").map Prod.snd,
        csv_format_value v = .ok (csvFmtPure v) := by
      intro v hv
      rw [List.mem_map] at hv
      obtain ⟨kv, hkv, rfl⟩ := hv
      exact csv_format_value_ok _
        (flattenLoop_values_prim result "" [] (by intro kv' hkv'; simp at hkv') kv hkv)
        (h kv hkv)
    dsimp only
    rw [exceptMapM_ok _ _ _ hvals]
    simp [List.map_map, Function.comp_def]
  · intro d p
    unfold flatten_dict
    exact flattenLoop_scrub d p []

/-- C9 (counterexample): a record with an integer field value makes the CSV
branch of `format_get_result` raise the uncaught `TypeError` of the ISO-date
probe, so the claimed "exactly one header row and one data row" are not
emitted for every record. -/
theorem format_get_result_csv_int_aborts :
    format_get_result_csv (Entries.cons "count" (.vInt 5) .nil) =
      .error (.typeError "fromisoformat: argument must be str") := by
  decide

/-- C9 witness: a record with a nested amount dict and a `_links` section
flattens to underscore-joined columns with the `_links` section gone. -/
theorem format_get_result_csv_spec_witness :
    (∀ kv ∈ flatten_dict
        (Entries.cons "resource" (.vStr "payment")
          (Entries.cons "amount"
            (.vDict (Entries.cons "currency" (.vStr "EUR")
              (Entries.cons "value" (.vStr "10.00") .nil)))
            (Entries.cons "_links"
              (.vDict (Entries.cons "self" (.vStr "u") .nil)) .nil))) "",
      csvSafeCell kv.2 = true) ∧
    format_get_result_csv
      (Entries.cons "resource" (.vStr "payment")
        (Entries.cons "amount"
          (.vDict (Entries.cons "currency" (.vStr "EUR")
            (Entries.cons "value" (.vStr "10.00") .nil)))
          (Entries.cons "_links"
            (.vDict (Entries.cons "self" (.vStr "u") .nil)) .nil))) =
      .ok (.csvRows
        [[.vStr "resource", .vStr "amount_currency", .vStr "amount_value"],
         [.vStr "payment", .vStr "EUR", .vStr "10.00"]]) :=
  ⟨by decide, by rw [format_get_result_csv_spec.1 _ (by decide)]; decide⟩

/-! ## Claim C8: JSON round-trip -/

theorem skipWs_append_of_ws :
    ∀ (ws l : List Char), (∀ c ∈ ws, isJsonWs c = true) →
      skipWs (ws ++ l) = skipWs l
  | [], l, _ => rfl
  | c :: ws', l, h => by
    rw [List.cons_append, skipWs, if_pos (h c (List.mem_cons_self _ _))]
    exact skipWs_append_of_ws ws' l (fun c' hc' => h c' (List.mem_cons_of_mem _ hc'))

theorem skipWs_cons_not_ws (c : Char) (l : List Char) (h : isJsonWs c = false) :
    skipWs (c :: l) = c :: l := by
  rw [skipWs, if_neg (by simp [h])]

theorem jsonNewlineIndent_ws (lvl : Nat) :
    ∀ c ∈ jsonNewlineIndent lvl, isJsonWs c = true := by
  intro c hc
  rw [jsonNewlineIndent, List.mem_cons] at hc
  rcases hc with hc | hc
  · rw [hc]; rfl
  · rw [List.eq_of_mem_replicate hc]; rfl

theorem parseStrBody_escape :
    ∀ (s rest : List Char),
      parseStrBody (jsonEscape s ++ ('"' :: rest)) = some (s, rest)
  | [], rest => by
    rw [jsonEscape, List.nil_append, parseStrBody.eq_def]
    dsimp only
    rw [if_pos rfl]
  | c :: s', rest => by
    rw [jsonEscape, jsonEscapeChar]
    by_cases hc : c = '"' ∨ c = '\\'
    · rw [if_pos (by simpa using hc)]
      have h2 : (['\\', c] ++ jsonEscape s') ++ ('"' :: rest) =
          '\\' :: (c :: (jsonEscape s' ++ ('"' :: rest))) := by simp
      rw [h2, parseStrBody.eq_def]
      dsimp only
      rw [if_neg (by decide), if_pos rfl, parseStrBody_escape s' rest]
    · push_neg at hc
      rw [if_neg (by simpa using hc)]
      have h2 : ([c] ++ jsonEscape s') ++ ('"' :: rest) =
          c :: (jsonEscape s' ++ ('"' :: rest)) := by simp
      rw [h2, parseStrBody.eq_def]
      dsimp only
      rw [if_neg hc.1, if_neg hc.2, parseStrBody_escape s' rest]

theorem digitChar_isDigitChar (d : Nat) (h : d < 10) :
    isDigitChar (Nat.digitChar d) = true := by
  interval_cases d <;> decide

theorem digitChar_val (d : Nat) (h : d < 10) :
    (Nat.digitChar d).toNat - 48 = d := by
  interval_cases d <;> decide

theorem digit_facts (c : Char) (h : isDigitChar c = true) :
    isJsonWs c = false ∧ c ≠ ']' ∧ c ≠ '\x7d' ∧ c ≠ 'n' ∧ c ≠ 't' ∧ c ≠ 'f' ∧
      c ≠ '"' ∧ c ≠ '[' ∧ c ≠ '\x7b' ∧ c ≠ '-' ∧ c ≠ ',' ∧ c ≠ ':' := by
  rw [isDigitChar, decide_eq_true_eq] at h
  simp only [List.mem_cons, List.not_mem_nil, or_false] at h
  rcases h with h | h | h | h | h | h | h | h | h | h <;> subst h <;>
    exact ⟨rfl, by decide, by decide, by decide, by decide, by decide, by decide,
      by decide, by decide, by decide, by decide, by decide⟩

theorem parseDigits_append :
    ∀ (ds : List Char) (acc : Nat) (rest : List Char),
      (∀ c ∈ ds, isDigitChar c = true) → noDigitHead rest →
      parseDigits acc (ds ++ rest) =
        (ds.foldl (fun a c => a * 10 + (c.toNat - 48)) acc, rest)
  | [], acc, rest, _, hrest => by
    cases rest with
    | nil => rfl
    | cons c r =>
      simp only [noDigitHead] at hrest
      rw [List.nil_append, List.foldl_nil, parseDigits, if_neg (by simp [hrest])]
  | d :: ds', acc, rest, hds, hrest => by
    rw [List.cons_append, parseDigits, if_pos (hds d (List.mem_cons_self _ _)),
      List.foldl_cons]
    exact parseDigits_append ds' _ rest
      (fun c hc => hds c (List.mem_cons_of_mem _ hc)) hrest

theorem printNatDigitsRev_digits :
    ∀ (fuel n : Nat), ∀ c ∈ printNatDigitsRev fuel n, isDigitChar c = true := by
  intro fuel
  induction fuel with
  | zero => intro n c hc; simp [printNatDigitsRev] at hc
  | succ fuel ih =>
    intro n c hc
    rw [printNatDigitsRev] at hc
    by_cases hn : n = 0
    · rw [if_pos hn] at hc; simp at hc
    · rw [if_neg hn, List.mem_cons] at hc
      rcases hc with hc | hc
      · rw [hc]; exact digitChar_isDigitChar _ (Nat.mod_lt _ (by norm_num))
      · exact ih _ c hc

theorem printNatDigitsRev_val :
    ∀ (fuel n : Nat), n ≤ fuel →
      ((printNatDigitsRev fuel n).reverse).foldl
        (fun a c => a * 10 + (c.toNat - 48)) 0 = n := by
  intro fuel
  induction fuel with
  | zero =>
    intro n hn
    have h0 : n = 0 := Nat.le_zero.mp hn
    subst h0
    rfl
  | succ fuel ih =>
    intro n hn
    rw [printNatDigitsRev]
    by_cases hn0 : n = 0
    · rw [if_pos hn0, hn0]; rfl
    · rw [if_neg hn0, List.reverse_cons, List.foldl_append,
        ih (n / 10) (by omega)]
      simp only [List.foldl_cons, List.foldl_nil]
      rw [digitChar_val _ (Nat.mod_lt _ (by norm_num))]
      omega

theorem printNat_spec (n : Nat) (rest : List Char) (hrest : noDigitHead rest) :
    ∃ c cs, printNat n = c :: cs ∧ isDigitChar c = true ∧
      parseDigits (c.toNat - 48) (cs ++ rest) = (n, rest) := by
  by_cases hn : n = 0
  · subst hn
    refine ⟨'0', [], rfl, rfl, ?_⟩
    cases rest with
    | nil => rfl
    | cons c r =>
      simp only [noDigitHead] at hrest
      rw [List.nil_append, parseDigits, if_neg (by simp [hrest])]
      rfl
  · rcases hrev : (printNatDigitsRev (n + 1) n).reverse with _ | ⟨c, cs⟩
    · rw [List.reverse_eq_nil_iff, printNatDigitsRev, if_neg hn] at hrev
      exact absurd hrev (by simp)
    · have hmem : ∀ x ∈ c :: cs, isDigitChar x = true := by
        intro x hx
        rw [← hrev, List.mem_reverse] at hx
        exact printNatDigitsRev_digits (n + 1) n x hx
      have hval : (c :: cs).foldl (fun a x => a * 10 + (x.toNat - 48)) 0 = n := by
        rw [← hrev]
        exact printNatDigitsRev_val (n + 1) n (by omega)
      rw [List.foldl_cons] at hval
      refine ⟨c, cs, ?_, hmem c (List.mem_cons_self _ _), ?_⟩
      · rw [printNat, if_neg hn, hrev]
      · rw [parseDigits_append cs (c.toNat - 48) rest
          (fun x hx => hmem x (List.mem_cons_of_mem _ hx)) hrest]
        simpa using hval

theorem printVal_head (v : Value) (lvl : Nat) (hj : jsonable v = true) :
    ∃ c X, printVal v lvl = c :: X ∧ isJsonWs c = false ∧ c ≠ ']' ∧ c ≠ '\x7d' := by
  cases v with
  | vNone => exact ⟨'n', _, rfl, by decide, by decide, by decide⟩
  | vBool b =>
    cases b
    · exact ⟨'f', ['a', 'l', 's', 'e'], rfl, by decide, by decide, by decide⟩
    · exact ⟨'t', ['r', 'u', 'e'], rfl, by decide, by decide, by decide⟩
  | vStr s => exact ⟨'"', _, rfl, by decide, by decide, by decide⟩
  | vDate s => simp [jsonable] at hj
  | vInt i =>
    cases i with
    | ofNat m =>
      obtain ⟨c, cs, hpn, hdig, _⟩ := printNat_spec m [] trivial
      obtain ⟨hws, _, _, _, _, _, _, _, _, _, _, _⟩ := digit_facts c hdig
      refine ⟨c, cs, ?_, hws, (digit_facts c hdig).2.1, (digit_facts c hdig).2.2.1⟩
      rw [printVal, printInt, hpn]
    | negSucc m => exact ⟨'-', _, by rw [printVal, printInt], by decide, by decide, by decide⟩
  | vList es =>
    cases es with
    | nil =>
      exact ⟨'[', [']'], by rw [printVal, printElems, if_pos rfl],
        by decide, by decide, by decide⟩
    | cons e rest =>
      exact ⟨'[', jsonNewlineIndent (lvl + 1) ++ printVal e (lvl + 1) ++
          printElems rest (lvl + 1) false ++ jsonNewlineIndent lvl ++ [']'],
        by rw [printVal, printElems, if_pos rfl], by decide, by decide, by decide⟩
  | vDict ms =>
    cases ms with
    | nil =>
      exact ⟨'\x7b', ['\x7d'], by rw [printVal, printEntries, if_pos rfl],
        by decide, by decide, by decide⟩
    | cons k val rest =>
      exact ⟨'\x7b', jsonNewlineIndent (lvl + 1) ++
          ('"' :: (jsonEscape k.data ++ ('"' :: ':' :: ' ' :: printVal val (lvl + 1)))) ++
          printEntries rest (lvl + 1) false ++ jsonNewlineIndent lvl ++ ['\x7d'],
        by rw [printVal, printEntries, if_pos rfl], by decide, by decide, by decide⟩

theorem noDigitHead_elems_cont (es : Elems) (lvl lvl2 : Nat) (rest : List Char) :
    noDigitHead (printElems es lvl false ++ (jsonNewlineIndent lvl2 ++ (']' :: rest))) := by
  cases es with
  | nil =>
    rw [printElems, if_neg (by simp), List.nil_append, jsonNewlineIndent]
    simp [noDigitHead, isDigitChar]
  | cons e rest' =>
    rw [printElems, if_neg (by simp), List.cons_append]
    simp [noDigitHead, isDigitChar]

theorem noDigitHead_entries_cont (ms : Entries) (lvl lvl2 : Nat) (rest : List Char) :
    noDigitHead (printEntries ms lvl false ++ (jsonNewlineIndent lvl2 ++ ('\x7d' :: rest))) := by
  cases ms with
  | nil =>
    rw [printEntries, if_neg (by simp), List.nil_append, jsonNewlineIndent]
    simp [noDigitHead, isDigitChar]
  | cons k v rest' =>
    rw [printEntries, if_neg (by simp), List.cons_append]
    simp [noDigitHead, isDigitChar]

theorem jsize_pos (v : Value) : 1 ≤ jsize v := by
  cases v <;> simp [jsize]

theorem jsizeElems_pos (es : Elems) : 1 ≤ jsizeElems es := by
  cases es <;> simp [jsizeElems] <;> omega

theorem jsizeEntries_pos (ms : Entries) : 1 ≤ jsizeEntries ms := by
  cases ms <;> simp [jsizeEntries] <;> omega

theorem parseMember_print (fuel : Nat) (k : String) (v : Value) (lvl : Nat)
    (ws rest : List Char)
    (hws : ∀ c ∈ ws, isJsonWs c = true) (hrest : noDigitHead rest)
    (hv : PrintsValRT v fuel) :
    parseMember (fuel + 1) (ws ++ (printMember v lvl k ++ rest)) =
      some (k, v, rest) := by
  have hskip : skipWs (ws ++ (printMember v lvl k ++ rest)) =
      '"' :: ((jsonEscape k.data ++ ('"' :: ':' :: ' ' :: printVal v lvl)) ++ rest) := by
    rw [printMember, skipWs_append_of_ws ws _ hws, List.cons_append,
      skipWs_cons_not_ws _ _ (by decide)]
  rw [parseMember, hskip]
  dsimp only
  rw [if_pos rfl]
  have hassoc : (jsonEscape k.data ++ ('"' :: ':' :: ' ' :: printVal v lvl)) ++ rest =
      jsonEscape k.data ++ ('"' :: (':' :: ' ' :: (printVal v lvl ++ rest))) := by
    simp
  rw [hassoc, parseStrBody_escape]
  dsimp only
  rw [skipWs_cons_not_ws _ _ (by decide)]
  rw [show (' ' :: (printVal v lvl ++ rest)) = ([' '] ++ (printVal v lvl ++ rest))
      from rfl]
  dsimp only
  rw [hv [' '] rest lvl (by decide) hrest]
  rw [if_pos rfl]

theorem json_print_parse_aux (N : Nat) :
    (∀ v : Value, jsize v ≤ N → jsonable v = true →
      ∀ fuel, jsize v ≤ fuel → PrintsValRT v fuel) ∧
    (∀ es : Elems, jsizeElems es ≤ N → jsonableElems es = true →
      ∀ fuel, jsizeElems es ≤ fuel → ElemsRT es fuel) ∧
    (∀ ms : Entries, jsizeEntries ms ≤ N → jsonableEntries ms = true →
      ∀ fuel, jsizeEntries ms ≤ fuel → EntriesRT ms fuel) := by
  induction N using Nat.strong_induction_on with
  | _ N IH =>
  refine ⟨?_, ?_, ?_⟩
  · -- values
    intro v hN hj fuel hfuel ws rest lvl hws hrest
    obtain ⟨f, rfl⟩ : ∃ f, fuel = f + 1 := ⟨fuel - 1, by have := jsize_pos v; omega⟩
    cases v with
    | vNone =>
      have hskip : skipWs (ws ++ (printVal Value.vNone lvl ++ rest)) =
          'n' :: ('u' :: 'l' :: 'l' :: rest) := by
        rw [skipWs_append_of_ws ws _ hws,
          show printVal Value.vNone lvl ++ rest = 'n' :: ('u' :: 'l' :: 'l' :: rest)
            from rfl,
          skipWs_cons_not_ws _ _ (by decide)]
      rw [parseVal, hskip]
      dsimp only
      rw [if_pos rfl, if_pos ⟨rfl, rfl, rfl⟩]
    | vBool b =>
      cases b with
      | true =>
        have hskip : skipWs (ws ++ (printVal (Value.vBool true) lvl ++ rest)) =
            't' :: ('r' :: 'u' :: 'e' :: rest) := by
          rw [skipWs_append_of_ws ws _ hws,
            show printVal (Value.vBool true) lvl ++ rest =
              't' :: ('r' :: 'u' :: 'e' :: rest) from rfl,
            skipWs_cons_not_ws _ _ (by decide)]
        rw [parseVal, hskip]
        dsimp only
        rw [if_neg (by decide), if_pos rfl, if_pos ⟨rfl, rfl, rfl⟩]
      | false =>
        have hskip : skipWs (ws ++ (printVal (Value.vBool false) lvl ++ rest)) =
            'f' :: ('a' :: 'l' :: 's' :: 'e' :: rest) := by
          rw [skipWs_append_of_ws ws _ hws,
            show printVal (Value.vBool false) lvl ++ rest =
              'f' :: ('a' :: 'l' :: 's' :: 'e' :: rest) from rfl,
            skipWs_cons_not_ws _ _ (by decide)]
        rw [parseVal, hskip]
        dsimp only
        rw [if_neg (by decide), if_neg (by decide), if_pos rfl,
          if_pos ⟨rfl, rfl, rfl, rfl⟩]
    | vStr s =>
      have hskip : skipWs (ws ++ (printVal (Value.vStr s) lvl ++ rest)) =
          '"' :: (jsonEscape s.data ++ ('"' :: rest)) := by
        rw [printVal, skipWs_append_of_ws ws _ hws, List.cons_append,
          skipWs_cons_not_ws _ _ (by decide)]
        simp
      rw [parseVal, hskip]
      dsimp only
      rw [if_neg (by decide), if_neg (by decide), if_neg (by decide), if_pos rfl,
        parseStrBody_escape]
    | vDate s => simp [jsonable] at hj
    | vInt i =>
      cases i with
      | ofNat m =>
        obtain ⟨c, cs, hpn, hdig, hparse⟩ := printNat_spec m rest hrest
        obtain ⟨hcws, hcb, hcb2, hc1, hc2, hc3, hc4, hc5, hc6, hc7, hc8, hc9⟩ :=
          digit_facts c hdig
        have hskip : skipWs (ws ++ (printVal (Value.vInt (Int.ofNat m)) lvl ++ rest)) =
            c :: (cs ++ rest) := by
          rw [printVal, printInt, hpn, skipWs_append_of_ws ws _ hws,
            List.cons_append, skipWs_cons_not_ws _ _ hcws]
        rw [parseVal, hskip]
        dsimp only
        rw [if_neg hc1, if_neg hc2, if_neg hc3, if_neg hc4, if_neg hc5,
          if_neg hc6, if_neg hc7, if_pos hdig]
        rw [hparse]
        rfl
      | negSucc m =>
          obtain ⟨c, cs, hpn, hdig, hparse⟩ := printNat_spec (m + 1) rest hrest
          have hskip : skipWs (ws ++ (printVal (Value.vInt (Int.negSucc m)) lvl ++ rest)) =
              '-' :: (printNat (m + 1) ++ rest) := by
            rw [printVal, printInt, skipWs_append_of_ws ws _ hws, List.cons_append,
              skipWs_cons_not_ws _ _ (by decide)]
          rw [parseVal, hskip]
          dsimp only
          rw [if_neg (by decide), if_neg (by decide), if_neg (by decide),
            if_neg (by decide), if_neg (by decide), if_neg (by decide), if_pos rfl,
            hpn, List.cons_append]
          dsimp only
          rw [if_pos hdig]
          rw [hparse]
          have hneg : (-((m + 1 : Nat) : Int)) = Int.negSucc m := by
            rw [Int.negSucc_eq]
            push_cast
            ring
          rw [hneg]
    | vList es =>
      cases es with
      | nil =>
        have hskip : skipWs (ws ++ (printVal (Value.vList Elems.nil) lvl ++ rest)) =
            '[' :: (']' :: rest) := by
          rw [printVal, printElems, if_pos rfl, skipWs_append_of_ws ws _ hws,
            show (['[', ']'] : List Char) ++ rest = '[' :: (']' :: rest) from rfl,
            skipWs_cons_not_ws _ _ (by decide)]
        rw [parseVal, hskip]
        dsimp only
        rw [if_neg (by decide), if_neg (by decide), if_neg (by decide),
          if_neg (by decide), if_pos rfl, skipWs_cons_not_ws _ _ (by decide)]
        dsimp only
        rw [if_pos rfl]
      | cons e es' =>
        simp only [jsonable, jsonableElems, Bool.and_eq_true] at hj
        have hsz : jsize (Value.vList (Elems.cons e es')) =
            3 + jsize e + jsizeElems es' := by
          simp [jsize, jsizeElems]
          omega
        have hese := jsizeElems_pos es'
        have hN' : jsize (Value.vList (Elems.cons e es')) ≤ N := hN
        rw [hsz] at hN' hfuel
        have hIH := IH (N - 1) (by omega)
        have hPe := hIH.1 e (by omega) hj.1 f (by omega)
        have hQes := hIH.2.1 es' (by omega) hj.2 f (by omega)
        have hXnd : noDigitHead (printElems es' (lvl + 1) false ++
            (jsonNewlineIndent lvl ++ (']' :: rest))) :=
          noDigitHead_elems_cont es' (lvl + 1) lvl rest
        have hprint : printVal (Value.vList (Elems.cons e es')) lvl ++ rest =
            '[' :: (jsonNewlineIndent (lvl + 1) ++ (printVal e (lvl + 1) ++
              (printElems es' (lvl + 1) false ++
                (jsonNewlineIndent lvl ++ (']' :: rest))))) := by
          rw [printVal, printElems, if_pos rfl]
          simp
        have hskip : skipWs (ws ++ (printVal (Value.vList (Elems.cons e es')) lvl ++ rest)) =
            '[' :: (jsonNewlineIndent (lvl + 1) ++ (printVal e (lvl + 1) ++
              (printElems es' (lvl + 1) false ++
                (jsonNewlineIndent lvl ++ (']' :: rest))))) := by
          rw [hprint, skipWs_append_of_ws ws _ hws,
            skipWs_cons_not_ws _ _ (by decide)]
        obtain ⟨c0, X0, hhead, hc0ws, hc0b, hc0c⟩ := printVal_head e (lvl + 1) hj.1
        have hskip2 : skipWs (jsonNewlineIndent (lvl + 1) ++ (printVal e (lvl + 1) ++
            (printElems es' (lvl + 1) false ++
              (jsonNewlineIndent lvl ++ (']' :: rest))))) =
            c0 :: (X0 ++ (printElems es' (lvl + 1) false ++
              (jsonNewlineIndent lvl ++ (']' :: rest)))) := by
          rw [skipWs_append_of_ws _ _ (jsonNewlineIndent_ws _), hhead,
            List.cons_append, skipWs_cons_not_ws _ _ hc0ws]
        rw [parseVal, hskip]
        dsimp only
        rw [if_neg (by decide), if_neg (by decide), if_neg (by decide),
          if_neg (by decide), if_pos rfl, hskip2]
        dsimp only
        rw [if_neg hc0b,
          hPe (jsonNewlineIndent (lvl + 1)) _ (lvl + 1) (jsonNewlineIndent_ws _) hXnd]
        dsimp only
        rw [hQes (lvl + 1) lvl rest]
    | vDict ms =>
      cases ms with
      | nil =>
        have hskip : skipWs (ws ++ (printVal (Value.vDict Entries.nil) lvl ++ rest)) =
            '\x7b' :: ('\x7d' :: rest) := by
          rw [printVal, printEntries, if_pos rfl, skipWs_append_of_ws ws _ hws,
            show ([Char.ofNat 123, Char.ofNat 125] : List Char) ++ rest =
              '\x7b' :: ('\x7d' :: rest) from rfl,
            skipWs_cons_not_ws _ _ (by decide)]
        rw [parseVal, hskip]
        dsimp only
        rw [if_neg (by decide), if_neg (by decide), if_neg (by decide),
          if_neg (by decide), if_neg (by decide), if_pos rfl,
          skipWs_cons_not_ws _ _ (by decide)]
        dsimp only
        rw [if_pos rfl]
      | cons k v ms' =>
        simp only [jsonable, jsonableEntries, Bool.and_eq_true] at hj
        have hsz : jsize (Value.vDict (Entries.cons k v ms')) =
            3 + jsize v + jsizeEntries ms' := by
          simp [jsize, jsizeEntries]
          omega
        have hmse := jsizeEntries_pos ms'
        have hN' : jsize (Value.vDict (Entries.cons k v ms')) ≤ N := hN
        rw [hsz] at hN' hfuel
        obtain ⟨g, rfl⟩ : ∃ g, f = g + 1 := ⟨f - 1, by omega⟩
        have hIH := IH (N - 1) (by omega)
        have hPv := hIH.1 v (by omega) hj.1 g (by omega)
        have hRms := hIH.2.2 ms' (by omega) hj.2 (g + 1) (by omega)
        have hXnd : noDigitHead (printEntries ms' (lvl + 1) false ++
            (jsonNewlineIndent lvl ++ ('\x7d' :: rest))) :=
          noDigitHead_entries_cont ms' (lvl + 1) lvl rest
        have hprint : printVal (Value.vDict (Entries.cons k v ms')) lvl ++ rest =
            '\x7b' :: (jsonNewlineIndent (lvl + 1) ++ (printMember v (lvl + 1) k ++
              (printEntries ms' (lvl + 1) false ++
                (jsonNewlineIndent lvl ++ ('\x7d' :: rest))))) := by
          rw [printVal, printEntries, if_pos rfl, printMember]
          simp
        have hskip : skipWs (ws ++
            (printVal (Value.vDict (Entries.cons k v ms')) lvl ++ rest)) =
            '\x7b' :: (jsonNewlineIndent (lvl + 1) ++ (printMember v (lvl + 1) k ++
              (printEntries ms' (lvl + 1) false ++
                (jsonNewlineIndent lvl ++ ('\x7d' :: rest))))) := by
          rw [hprint, skipWs_append_of_ws ws _ hws,
            skipWs_cons_not_ws _ _ (by decide)]
        have hskip2 : skipWs (jsonNewlineIndent (lvl + 1) ++ (printMember v (lvl + 1) k ++
            (printEntries ms' (lvl + 1) false ++
              (jsonNewlineIndent lvl ++ ('\x7d' :: rest))))) =
            '"' :: ((jsonEscape k.data ++
              ('"' :: ':' :: ' ' :: printVal v (lvl + 1))) ++
              (printEntries ms' (lvl + 1) false ++
                (jsonNewlineIndent lvl ++ ('\x7d' :: rest)))) := by
          rw [skipWs_append_of_ws _ _ (jsonNewlineIndent_ws _), printMember,
            List.cons_append, skipWs_cons_not_ws _ _ (by decide)]
        rw [parseVal, hskip]
        dsimp only
        rw [if_neg (by decide), if_neg (by decide), if_neg (by decide),
          if_neg (by decide), if_neg (by decide), if_pos rfl, hskip2]
        dsimp only
        rw [if_neg (by decide),
          parseMember_print g k v (lvl + 1) (jsonNewlineIndent (lvl + 1)) _
            (jsonNewlineIndent_ws _) hXnd hPv]
        dsimp only
        rw [hRms (lvl + 1) lvl rest]
  · -- array continuations
    intro es hN hj fuel hfuel lvl lvl2 rest
    obtain ⟨f, rfl⟩ : ∃ f, fuel = f + 1 := ⟨fuel - 1, by have := jsizeElems_pos es; omega⟩
    cases es with
    | nil =>
      have hskip : skipWs (printElems Elems.nil lvl false ++
          (jsonNewlineIndent lvl2 ++ (']' :: rest))) = ']' :: rest := by
        rw [printElems, if_neg (by simp), List.nil_append,
          skipWs_append_of_ws _ _ (jsonNewlineIndent_ws _),
          skipWs_cons_not_ws _ _ (by decide)]
      rw [parseElemsRest, hskip]
      dsimp only
      rw [if_neg (by decide), if_pos rfl]
    | cons e es' =>
      simp only [jsonableElems, Bool.and_eq_true] at hj
      have hsz : jsizeElems (Elems.cons e es') = 2 + jsize e + jsizeElems es' := rfl
      rw [hsz] at hN hfuel
      have hIH := IH (N - 1) (by have := jsize_pos e; omega)
      have hPe := hIH.1 e (by have := jsizeElems_pos es'; omega) hj.1 f (by omega)
      have hQes := hIH.2.1 es' (by have := jsize_pos e; omega) hj.2 f
        (by have := jsize_pos e; omega)
      have hXnd : noDigitHead (printElems es' lvl false ++
          (jsonNewlineIndent lvl2 ++ (']' :: rest))) :=
        noDigitHead_elems_cont es' lvl lvl2 rest
      have hprint : printElems (Elems.cons e es') lvl false ++
          (jsonNewlineIndent lvl2 ++ (']' :: rest)) =
          ',' :: (jsonNewlineIndent lvl ++ (printVal e lvl ++
            (printElems es' lvl false ++ (jsonNewlineIndent lvl2 ++ (']' :: rest))))) := by
        rw [printElems, if_neg (by simp)]
        simp
      have hskip : skipWs (printElems (Elems.cons e es') lvl false ++
          (jsonNewlineIndent lvl2 ++ (']' :: rest))) =
          ',' :: (jsonNewlineIndent lvl ++ (printVal e lvl ++
            (printElems es' lvl false ++ (jsonNewlineIndent lvl2 ++ (']' :: rest))))) := by
        rw [hprint, skipWs_cons_not_ws _ _ (by decide)]
      rw [parseElemsRest, hskip]
      dsimp only
      rw [if_pos rfl,
        hPe (jsonNewlineIndent lvl) _ lvl (jsonNewlineIndent_ws _) hXnd]
      dsimp only
      rw [hQes lvl lvl2 rest]
  · -- object continuations
    intro ms hN hj fuel hfuel lvl lvl2 rest
    obtain ⟨f, rfl⟩ : ∃ f, fuel = f + 1 :=
      ⟨fuel - 1, by have := jsizeEntries_pos ms; omega⟩
    cases ms with
    | nil =>
      have hskip : skipWs (printEntries Entries.nil lvl false ++
          (jsonNewlineIndent lvl2 ++ ('\x7d' :: rest))) = '\x7d' :: rest := by
        rw [printEntries, if_neg (by simp), List.nil_append,
          skipWs_append_of_ws _ _ (jsonNewlineIndent_ws _),
          skipWs_cons_not_ws _ _ (by decide)]
      rw [parseMembersRest, hskip]
      dsimp only
      rw [if_neg (by decide), if_pos rfl]
    | cons k v ms' =>
      simp only [jsonableEntries, Bool.and_eq_true] at hj
      have hsz : jsizeEntries (Entries.cons k v ms') =
          2 + jsize v + jsizeEntries ms' := rfl
      rw [hsz] at hN hfuel
      obtain ⟨g, rfl⟩ : ∃ g, f = g + 1 := ⟨f - 1, by have := jsize_pos v; omega⟩
      have hIH := IH (N - 1) (by have := jsize_pos v; omega)
      have hPv := hIH.1 v (by have := jsizeEntries_pos ms'; omega) hj.1 g
        (by have := jsizeEntries_pos ms'; omega)
      have hRms := hIH.2.2 ms' (by have := jsize_pos v; omega) hj.2 (g + 1)
        (by have := jsize_pos v; omega)
      have hXnd : noDigitHead (printEntries ms' lvl false ++
          (jsonNewlineIndent lvl2 ++ ('\x7d' :: rest))) :=
        noDigitHead_entries_cont ms' lvl lvl2 rest
      have hprint : printEntries (Entries.cons k v ms') lvl false ++
          (jsonNewlineIndent lvl2 ++ ('\x7d' :: rest)) =
          ',' :: (jsonNewlineIndent lvl ++ (printMember v lvl k ++
            (printEntries ms' lvl false ++
              (jsonNewlineIndent lvl2 ++ ('\x7d' :: rest))))) := by
        rw [printEntries, if_neg (by simp), printMember]
        simp
      have hskip : skipWs (printEntries (Entries.cons k v ms') lvl false ++
          (jsonNewlineIndent lvl2 ++ ('\x7d' :: rest))) =
          ',' :: (jsonNewlineIndent lvl ++ (printMember v lvl k ++
            (printEntries ms' lvl false ++
              (jsonNewlineIndent lvl2 ++ ('\x7d' :: rest))))) := by
        rw [hprint, skipWs_cons_not_ws _ _ (by decide)]
      rw [parseMembersRest, hskip]
      dsimp only
      rw [if_pos rfl,
        parseMember_print g k v lvl (jsonNewlineIndent lvl) _
          (jsonNewlineIndent_ws _) hXnd hPv]
      dsimp only
      rw [hRms lvl lvl2 rest]

theorem jsonNewlineIndent_length (l : Nat) :
    (jsonNewlineIndent l).length = 1 + 4 * l := by
  simp [jsonNewlineIndent]
  omega

theorem printInt_length_pos (i : Int) : 1 ≤ (printInt i).length := by
  cases i with
  | ofNat m =>
    obtain ⟨c, cs, hpn, _, _⟩ := printNat_spec m [] trivial
    rw [printInt, hpn]
    simp
  | negSucc m => rw [printInt]; simp

mutual
theorem jsize_le_printVal_length :
    ∀ (v : Value) (lvl : Nat), jsize v ≤ (printVal v lvl).length
  | .vNone, _ => by simp [jsize, printVal]
  | .vBool b, _ => by cases b <;> simp [jsize, printVal]
  | .vInt i, lvl => by
    have := printInt_length_pos i
    simp only [jsize, printVal]
    omega
  | .vStr s, _ => by simp [jsize, printVal]
  | .vDate s, _ => by simp [jsize, printVal]
  | .vList es, lvl => by
    cases es with
    | nil => simp [jsize, jsizeElems, printVal, printElems]
    | cons e es' =>
      have he := jsize_le_printVal_length e (lvl + 1)
      have hes := jsizeElems_le_printElems_length es' (lvl + 1)
      simp only [jsize, jsizeElems, printVal, printElems, if_pos,
        List.length_cons, List.length_append, jsonNewlineIndent_length]
      omega
  | .vDict ms, lvl => by
    cases ms with
    | nil => simp [jsize, jsizeEntries, printVal, printEntries]
    | cons k v ms' =>
      have hv := jsize_le_printVal_length v (lvl + 1)
      have hms := jsizeEntries_le_printEntries_length ms' (lvl + 1)
      simp only [jsize, jsizeEntries, printVal, printEntries, if_pos,
        List.length_cons, List.length_append, jsonNewlineIndent_length]
      omega

theorem jsizeElems_le_printElems_length :
    ∀ (es : Elems) (lvl : Nat), jsizeElems es ≤ (printElems es lvl false).length + 2
  | .nil, _ => by simp [jsizeElems, printElems]
  | .cons e es', lvl => by
    have he := jsize_le_printVal_length e lvl
    have hes := jsizeElems_le_printElems_length es' lvl
    simp only [jsizeElems, printElems, Bool.false_eq_true, if_false,
      List.length_cons, List.length_append, jsonNewlineIndent_length]
    omega

theorem jsizeEntries_le_printEntries_length :
    ∀ (ms : Entries) (lvl : Nat),
      jsizeEntries ms ≤ (printEntries ms lvl false).length + 2
  | .nil, _ => by simp [jsizeEntries, printEntries]
  | .cons k v ms', lvl => by
    have hv := jsize_le_printVal_length v lvl
    have hms := jsizeEntries_le_printEntries_length ms' lvl
    simp only [jsizeEntries, printEntries, Bool.false_eq_true, if_false,
      List.length_cons, List.length_append, jsonNewlineIndent_length]
    omega
end

theorem json_loads_dumps (v : Value) (hj : jsonable v = true) :
    json_loads (String.mk (printVal v 0)) = some v := by
  unfold json_loads
  have hlen : jsize v ≤ (printVal v 0).length + 1 :=
    le_trans (jsize_le_printVal_length v 0) (by omega)
  have h := (json_print_parse_aux (jsize v)).1 v le_rfl hj
    ((printVal v 0).length + 1) hlen [] [] 0 (by simp) trivial
  simp only [List.nil_append, List.append_nil] at h
  rw [show (String.mk (printVal v 0)).data = printVal v 0 from rfl, h]
  rfl

/-- C8: for JSON-serializable data (any data the code's `json.dumps` call does not
reject), rendering with mode JSON — `format_list_result` on a record sequence or
`format_get_result` on a single record — emits the dump of the raw data with no
projection applied (the emitted text does not depend on the resource name, so the
column projection plays no role), and parsing the emitted text back with
`json_loads` yields a value structurally identical to the input records. -/
theorem format_json_roundtrip (result : List Record) (resource_name : String)
    (single : Record)
    (h1 : jsonable (encodeRecords result) = true)
    (h2 : jsonable (Value.vDict single) = true) :
    (∃ text, format_list_result result resource_name FORMAT_JSON = .ok (.json text) ∧
      json_loads text = some (encodeRecords result)) ∧
    (∃ text, format_get_result_json single = .ok (.json text) ∧
      json_loads text = some (Value.vDict single)) ∧
    (∀ other_name : String, format_list_result result other_name FORMAT_JSON =
      format_list_result result resource_name FORMAT_JSON) := by
  refine ⟨⟨String.mk (printVal (encodeRecords result) 0), ?_, json_loads_dumps _ h1⟩,
    ⟨String.mk (printVal (Value.vDict single) 0), ?_, json_loads_dumps _ h2⟩, ?_⟩
  · unfold format_list_result json_dumps
    rw [if_pos rfl, if_pos h1]
    rfl
  · unfold format_get_result_json json_dumps
    rw [if_pos h2]
    rfl
  · intro other_name
    rfl

/-- C8 witness: a one-record list and a single record round-trip through the JSON
renderer. -/
theorem format_json_roundtrip_witness :
    jsonable (encodeRecords [Entries.cons "id" (.vStr "tr_9") .nil]) = true ∧
    jsonable (Value.vDict (Entries.cons "id" (.vStr "cst_3") .nil)) = true ∧
    (∃ text, format_list_result [Entries.cons "id" (.vStr "tr_9") .nil] "payments"
        FORMAT_JSON = .ok (.json text) ∧
      json_loads text = some (encodeRecords [Entries.cons "id" (.vStr "tr_9") .nil])) ∧
    (∃ text, format_get_result_json (Entries.cons "id" (.vStr "cst_3") .nil) =
        .ok (.json text) ∧
      json_loads text = some (Value.vDict (Entries.cons "id" (.vStr "cst_3") .nil))) :=
  ⟨by decide, by decide,
   (format_json_roundtrip [Entries.cons "id" (.vStr "tr_9") .nil] "payments"
      (Entries.cons "id" (.vStr "cst_3") .nil) (by decide) (by decide)).1,
   (format_json_roundtrip [Entries.cons "id" (.vStr "tr_9") .nil] "payments"
      (Entries.cons "id" (.vStr "cst_3") .nil) (by decide) (by decide)).2.1⟩
